import Mathlib

/-!
# vault-auto-unseal: a shallow embedding of `vault.go` and `secrets.go`

The program talks to three things it does not own: the Vault server (through
the `api` client), the file system, and the Go runtime (clock, tickers,
contexts, `select`).  They are gathered in `Env`, a record of oracles that
answer from the current `World`; the world holds the clock, the files and the
list of operations issued so far, so an oracle may depend on the whole history
of the run.

Go values are rendered as follows.
* `[]byte` is `List UInt8`, and so is a `string` that the program handles as
  data (an unseal key, the root token): a Go string is any sequence of bytes.
  The text of an error and a path are `String`.  A nil slice and an empty
  slice are both `[]`.
* `error` is `Option GoError` (`none` is `nil`).
* `time.Duration` and instants are counted in nanoseconds.
* a closure that assigns to captured variables is a function that takes and
  returns the captured variables.
* `log.Printf` output is not modelled.
* a loop that need not terminate takes a fuel argument; `none` means that no
  result was produced (out of fuel, or a Go panic).
-/

namespace VaultAutoUnseal

/-! ## Go runtime values -/

/-- Go `error` values the program can tell apart: the two context sentinels,
and everything else (made by `errors.New`, `fmt.Errorf`, or a library), which
the program only ever prints. -/
inductive GoError where
  | deadlineExceeded
  | canceled
  | msg (text : String)
  deriving DecidableEq

/-- The `Error()` method. -/
def GoError.Error : GoError → String
  | .deadlineExceeded => "context deadline exceeded"
  | .canceled => "context canceled"
  | .msg text => text

abbrev Bytes := List UInt8

/-- One nanosecond-counted second, `time.Second`. -/
def second : Nat := 1000000000

/-! ## secrets.go: data -/

/-- The struct `secrets` (secrets.go:12). -/
structure secrets where
  UnsealKeys : List Bytes
  RootToken : Bytes
  deriving DecidableEq

/-- The struct `secretsStash` (secrets.go:27). -/
structure secretsStash where
  Path : String
  deriving DecidableEq

/-! ## The world outside the program -/

/-- The fields of `api.HealthResponse` that the program reads. -/
structure HealthResponse where
  Initialized : Bool
  Sealed : Bool
  Standby : Bool
  deriving DecidableEq

/-- The fields of `api.InitRequest` that the program sets. -/
structure InitRequest where
  SecretShares : Int
  SecretThreshold : Int
  deriving DecidableEq

/-- The fields of `api.InitResponse` that the program reads. -/
structure InitResponse where
  Keys : List Bytes
  RootToken : Bytes
  deriving DecidableEq

/-- The field of `api.SealStatusResponse` that the program reads. -/
structure SealStatusResponse where
  Sealed : Bool
  deriving DecidableEq

/-- An operation the program issues to the outside. -/
inductive Call where
  | readEnvironment
  | newClient
  | health
  | init (req : InitRequest)
  | unseal (share : Bytes)
  | readFile (path : String)
  | mkdirAll (dir : String) (perm : Nat)
  | writeFile (path : String) (data : Bytes) (perm : Nat)
  deriving DecidableEq

/-- The state of the outside: the clock, the files, and every operation
issued so far, oldest first. -/
structure World where
  now : Nat
  files : List (String × Bytes)
  calls : List Call
  deriving DecidableEq

/-- The answers of the outside.  Each oracle sees the world as it is when the
operation is issued.  `marshal`, `unmarshal` (of `encoding/json`, for the
struct `secrets`) and `dir` (`filepath.Dir`) are library functions. -/
structure Env where
  readEnvironment : World → Option GoError
  newClient : World → Option GoError
  sysHealth : World → Except GoError HealthResponse
  sysInit : World → InitRequest → Except GoError InitResponse
  sysUnseal : World → Bytes → Except GoError SealStatusResponse
  fsFault : World → Call → Option GoError
  dur : World → Call → Nat
  pickDone : World → Bool
  marshal : secrets → Except GoError Bytes
  unmarshal : Bytes → Except GoError secrets
  dir : String → String

/-- Issuing an operation: it is recorded, and the clock moves on by the time
the operation takes. -/
def World.issue (env : Env) (c : Call) (w : World) : World :=
  { w with now := w.now + env.dur w c, calls := w.calls ++ [c] }

/-- The content of the file at `path`, if there is one. -/
def World.lookup (w : World) (path : String) : Option Bytes :=
  (w.files.find? (fun e => e.1 == path)).map (fun e => e.2)

/-- The files after `path` has been given the content `data`. -/
def World.store (w : World) (path : String) (data : Bytes) : World :=
  { w with files := (path, data) :: w.files.filter (fun e => !(e.1 == path)) }

/-- The call `ioutil.ReadFile(path)`. -/
def readFile (env : Env) (path : String) (w : World) : Except GoError Bytes × World :=
  let w1 := w.issue env (.readFile path)
  match env.fsFault w (.readFile path) with
  | some e => (.error e, w1)
  | none =>
    match w.lookup path with
    | some b => (.ok b, w1)
    | none => (.error (.msg ("open " ++ path ++ ": no such file or directory")), w1)

/-- The call `os.MkdirAll(dir, perm)`; directories are not part of `World`. -/
def mkdirAll (env : Env) (dir : String) (perm : Nat) (w : World) : Option GoError × World :=
  (env.fsFault w (.mkdirAll dir perm), w.issue env (.mkdirAll dir perm))

/-- The call `ioutil.WriteFile(path, data, perm)`. -/
def writeFile (env : Env) (path : String) (data : Bytes) (perm : Nat) (w : World) :
    Option GoError × World :=
  let w1 := w.issue env (.writeFile path data perm)
  match env.fsFault w (.writeFile path data perm) with
  | some e => (some e, w1)
  | none => (none, w1.store path data)

/-! ## Contexts, tickers and `select` -/

/-- A `context.Context`: the instant at which `Done()` becomes readable
(`none`: never) and what `Err()` returns from then on. -/
structure Context where
  doneAt : Option Nat
  err : GoError
  deriving DecidableEq

/-- The context `context.Background()`. -/
def Context.background : Context := ⟨none, .canceled⟩

/-- Whether `Done()` is readable at the instant `now`. -/
def Context.isDone (ctx : Context) (now : Nat) : Bool :=
  match ctx.doneAt with
  | some d => decide (d ≤ now)
  | none => false

/-- The call `context.WithTimeout(parent, d)` made at the instant `now`: the
child is done when the parent is, or at the deadline, whichever is first. -/
def Context.withTimeout (parent : Context) (now : Nat) (d : Int) : Context :=
  let deadline := ((now : Int) + d).toNat
  match parent.doneAt with
  | some p => if p ≤ deadline then parent else ⟨some deadline, .deadlineExceeded⟩
  | none => ⟨some deadline, .deadlineExceeded⟩

/-- A `time.Ticker`: the instant of the next tick, the period, and whether a
tick is waiting in the channel, which holds one. -/
structure Ticker where
  next : Nat
  interval : Nat
  buffered : Bool
  deriving DecidableEq

/-- The call `time.NewTicker(interval)` made at the instant `now`. -/
def Ticker.new (now interval : Nat) : Ticker := ⟨now + interval, interval, false⟩

/-- The ticker as it stands at the instant `now`: a tick that fell due has been
put in the channel (later ones found it full and were dropped), and the next
tick is the first one after `now`. -/
def Ticker.catchUp (tk : Ticker) (now : Nat) : Ticker :=
  if tk.next ≤ now then
    { tk with buffered := true,
              next := tk.next + ((now - tk.next) / tk.interval + 1) * tk.interval }
  else tk

/-- The case a `select` took. -/
inductive Woke where
  | done
  | tick
  deriving DecidableEq

/-- The instant at which a `select` on `ctx.Done()` and the ticker's channel
returns when it is entered at `now`: at once if a channel is readable, else
at the first instant at which one is. -/
def wakeAt (ctx : Context) (tk : Ticker) (now : Nat) : Nat :=
  if tk.buffered || ctx.isDone now then now
  else match ctx.doneAt with
    | some d => min d tk.next
    | none => tk.next

/-- The statement `select { case <-ctx.Done(): ... case <-t.C: ... }`.  If a
channel is readable, a case is taken at once; otherwise the goroutine sleeps
until the first instant at which one is.  With both readable the runtime picks
one, which is the oracle `pickDone`. -/
def select (env : Env) (ctx : Context) (tk : Ticker) (w : World) : Woke × Ticker × World :=
  let wake := wakeAt ctx (tk.catchUp w.now) w.now
  let w1 := { w with now := wake }
  let tk2 := (tk.catchUp w.now).catchUp wake
  if ctx.isDone wake then
    if tk2.buffered then
      if env.pickDone w1 then (.done, tk2, w1) else (.tick, { tk2 with buffered := false }, w1)
    else (.done, tk2, w1)
  else (.tick, { tk2 with buffered := false }, w1)

/-! ## secrets.go: operations -/

/-- The method `(*secrets).Validate` (secrets.go:17). -/
def secrets.Validate (s : secrets) : Option GoError :=
  if s.UnsealKeys.isEmpty || s.UnsealKeys.length == 0 then
    some (.msg "secrets: no unseal keys found")
  else if s.RootToken = [] then
    some (.msg "secrets: no root token found")
  else none

/-- The method `(*secretsStash).Save` (secrets.go:31). -/
def secretsStash.Save (env : Env) (ss : secretsStash) (sec : secrets) (w : World) :
    Option GoError × World :=
  let fail := fun (err : GoError) => GoError.msg ("failed to save secrets stash: " ++ err.Error)
  match env.marshal sec with
  | .error err => (some (fail err), w)
  | .ok b =>
    match mkdirAll env (env.dir ss.Path) 0o755 w with
    | (some err, w1) => (some (fail err), w1)
    | (none, w1) =>
      match writeFile env ss.Path b 0o600 w1 with
      | (some err, w2) => (some (fail err), w2)
      | (none, w2) => (none, w2)

/-- The method `(*secretsStash).Load` (secrets.go:49).  The first component is
the returned pointer (`none` is `nil`), the second the returned error. -/
def secretsStash.Load (env : Env) (ss : secretsStash) (w : World) :
    (Option secrets × Option GoError) × World :=
  let fail := fun (err : GoError) => GoError.msg ("failed to load secrets stash: " ++ err.Error)
  match readFile env ss.Path w with
  | (.error err, w1) => ((none, some (fail err)), w1)
  | (.ok b, w1) =>
    match env.unmarshal b with
    | .error err => ((none, some (fail err)), w1)
    | .ok sec => ((some sec, sec.Validate), w1)

/-! ## vault.go -/

/-- The type `serverStatus` (vault.go:145). -/
inductive serverStatus where
  | unknown
  | uninitialized
  | sealed
  | standby
  | active
  deriving DecidableEq

/-- The type `serverStatuses` (vault.go:159). -/
abbrev serverStatuses := List serverStatus

/-- The variable `serverUp` (vault.go:156). -/
def serverUp : serverStatuses := [.uninitialized, .sealed, .standby, .active]

/-- The method `serverStatuses.Has` (vault.go:161). -/
def serverStatuses.Has : serverStatuses → serverStatus → Bool
  | [], _ => false
  | status :: rest, desired => if status = desired then true else serverStatuses.Has rest desired

/-- The function `config` (vault.go:218); the `*api.Config` it returns is only
handed on to `api.NewClient`, so just the error is kept. -/
def config (env : Env) (w : World) : Option GoError × World :=
  match env.readEnvironment w with
  | some err => (some (.msg ("vault config: " ++ err.Error)), w.issue env .readEnvironment)
  | none => (none, w.issue env .readEnvironment)

/-- The call `api.NewClient(cfg)`. -/
def newClient (env : Env) (w : World) : Option GoError × World :=
  (env.newClient w, w.issue env .newClient)

/-- The function `vaultStatus` (vault.go:170).  It ignores its context; the
five-second `cfg.Timeout` bounds how long `Health` may take, which is for the
outside to honour (`dur`). -/
def vaultStatus (env : Env) (w : World) : (serverStatus × Option GoError) × World :=
  match config env w with
  | (some err, w1) => ((.unknown, some err), w1)
  | (none, w1) =>
    match newClient env w1 with
    | (some err, w2) => ((.unknown, some err), w2)
    | (none, w2) =>
      match env.sysHealth w2 with
      | .error err => ((.unknown, some err), w2.issue env .health)
      | .ok res =>
        if res.Initialized && res.Sealed then ((.sealed, none), w2.issue env .health)
        else if res.Initialized && res.Standby then ((.standby, none), w2.issue env .health)
        else if res.Initialized then ((.active, none), w2.issue env .health)
        else ((.uninitialized, none), w2.issue env .health)

/-- What `retry` did, in order: an invocation of `work` (with the instant it
started at and what it returned), a tick taken from the ticker, or the
context found done. -/
inductive RetryEvent where
  | invoke (start : Nat) (result : Bool)
  | tick
  | done
  deriving DecidableEq

/-- The loop of `retry` (vault.go:232-242). -/
def retryLoop {α : Type} (env : Env) (ctx : Context) (work : α → World → Bool × α × World) :
    Nat → Ticker → α → World → List RetryEvent →
      Option (Option GoError × α × World × List RetryEvent)
  | 0, _, _, _, _ => none
  | fuel + 1, tk, a, w, log =>
    match select env ctx tk w with
    | (.done, _, w1) => some (some ctx.err, a, w1, log ++ [.done])
    | (.tick, tk1, w1) =>
      match work a w1 with
      | (true, a2, w2) => some (none, a2, w2, log ++ [.tick, .invoke w1.now true])
      | (false, a2, w2) => retryLoop env ctx work fuel tk1 a2 w2 (log ++ [.tick, .invoke w1.now false])

/-- The function `retry` (vault.go:226).  `a` holds the variables that `work`
captures; the last component of the result lists what `retry` did.
`time.NewTicker` panics when the interval is not positive. -/
def retry {α : Type} (env : Env) (fuel : Nat) (ctx : Context) (interval : Nat)
    (work : α → World → Bool × α × World) (a : α) (w : World) :
    Option (Option GoError × α × World × List RetryEvent) :=
  match work a w with
  | (true, a1, w1) => some (none, a1, w1, [.invoke w.now true])
  | (false, a1, w1) =>
    if interval = 0 then none
    else retryLoop env ctx work fuel (Ticker.new w1.now interval) a1 w1 [.invoke w.now false]

/-- The acceptance set that `waitForServerStatus` settles on (vault.go:197-199):
`serverUp` stands in for a nil or empty one. -/
def acceptance (until_ : serverStatuses) : serverStatuses :=
  if until_.isEmpty || until_.length == 0 then serverUp else until_

/-- The closure that `waitForServerStatus` hands to `retry` (vault.go:204-211);
it captures `status` and `err`. -/
def statusWork (env : Env) (until_ : serverStatuses) (_ : serverStatus × Option GoError)
    (w : World) : Bool × (serverStatus × Option GoError) × World :=
  match vaultStatus env w with
  | ((status, err), w1) =>
    if serverStatuses.Has until_ status then (true, (status, err), w1)
    else (false, (status, err), w1)

/-- The function `waitForServerStatus` (vault.go:196). -/
def waitForServerStatus (env : Env) (fuel : Nat) (ctx : Context) (until_ : serverStatuses)
    (w : World) : Option ((serverStatus × Option GoError) × World) :=
  match retry env fuel ctx (10 * second) (statusWork env (acceptance until_)) (.unknown, none) w with
  | none => none
  | some (some rerr, _, w1, _) => some ((.unknown, some rerr), w1)
  | some (none, (status, err), w1, _) => some ((status, err), w1)

/-- The struct `vaultInitParams` (vault.go:15). -/
structure vaultInitParams where
  ServerUpWaitTimeout : Int
  SecretShares : Int
  SecretThreshold : Int
  Idempotent : Bool
  deriving DecidableEq

/-- The function `vaultInit` (vault.go:22). -/
def vaultInit (env : Env) (fuel : Nat) (ctx : Context) (params : vaultInitParams)
    (ss : secretsStash) (w : World) : Option (Option GoError × World) :=
  let ctxWait := ctx.withTimeout w.now params.ServerUpWaitTimeout
  match waitForServerStatus env fuel ctxWait [] w with
  | none => none
  | some ((_, some err), w1) =>
    if err = .deadlineExceeded then some (some (.msg "gave up waiting for Vault server"), w1)
    else some (some err, w1)
  | some ((status, none), w1) =>
    if params.Idempotent && (status = .sealed || status = .standby || status = .active) then
      some (none, w1)
    else
      match config env w1 with
      | (some err, w2) => some (some err, w2)
      | (none, w2) =>
        match newClient env w2 with
        | (some err, w3) => some (some err, w3)
        | (none, w3) =>
          let req : InitRequest := ⟨params.SecretShares, params.SecretThreshold⟩
          match env.sysInit w3 req with
          | .error err => some (some err, w3.issue env (.init req))
          | .ok res =>
            match secretsStash.Save env ss ⟨res.Keys, res.RootToken⟩ (w3.issue env (.init req)) with
            | (some err, w5) => some (some err, w5)
            | (none, w5) => some (none, w5)

/-- The struct `vaultUnsealParams` (vault.go:73). -/
structure vaultUnsealParams where
  ServerUpWaitTimeout : Int
  Idempotent : Bool
  deriving DecidableEq

/-- The share loop of `vaultUnseal` (vault.go:132-142). -/
def unsealShares (env : Env) : List Bytes → World → Option GoError × World
  | [], w => (some (.msg "exhausted saved unseal keys - Vault remains sealed"), w)
  | share :: rest, w =>
    match env.sysUnseal w share with
    | .error err => (some err, w.issue env (.unseal share))
    | .ok res =>
      if res.Sealed == false then (none, w.issue env (.unseal share))
      else unsealShares env rest (w.issue env (.unseal share))

/-- The closure that `vaultUnseal` hands to `retry` (vault.go:106-113); it
captures `sec` and `lerr`. -/
def loadWork (env : Env) (ss : secretsStash) (_ : Option secrets × Option GoError) (w : World) :
    Bool × (Option secrets × Option GoError) × World :=
  match secretsStash.Load env ss w with
  | ((sec, some lerr), w1) => (false, (sec, some lerr), w1)
  | ((sec, none), w1) => (true, (sec, none), w1)

/-- The function `vaultUnseal` (vault.go:78).  Calling `Validate` through a nil
`sec` would panic. -/
def vaultUnseal (env : Env) (fuel : Nat) (ctx : Context) (params : vaultUnsealParams)
    (ss : secretsStash) (w : World) : Option (Option GoError × World) :=
  let ctxWait := ctx.withTimeout w.now params.ServerUpWaitTimeout
  match waitForServerStatus env fuel ctxWait [.sealed, .standby, .active] w with
  | none => none
  | some ((_, some err), w1) =>
    if err = .deadlineExceeded then some (some (.msg "gave up waiting for Vault server"), w1)
    else some (some err, w1)
  | some ((status, none), w1) =>
    if params.Idempotent && (status = .standby || status = .active) then
      some (none, w1)
    else
      let ctxLoad := ctx.withTimeout w1.now (20 * second)
      match retry env fuel ctxLoad (3 * second) (loadWork env ss) (none, none) w1 with
      | none => none
      | some (some rerr, (_, some lerr), w2, _) =>
        some (some (.msg (rerr.Error ++ ": " ++ lerr.Error)), w2)
      | some (some rerr, (_, none), w2, _) => some (some rerr, w2)
      | some (none, (none, _), _, _) => none
      | some (none, (some sec, _), w2, _) =>
        match sec.Validate with
        | some err => some (some err, w2)
        | none =>
          match config env w2 with
          | (some err, w3) => some (some err, w3)
          | (none, w3) =>
            match newClient env w3 with
            | (some err, w4) => some (some err, w4)
            | (none, w4) => some (unsealShares env sec.UnsealKeys w4)

/-! ## `encoding/json` for `secrets`

What `json.Marshal` writes for a `secrets`, and what `json.Unmarshal` reads
back from a document of that layout.  Both work on bytes: a Go string that is
not valid UTF-8 is coerced on the way out, each offending byte becoming the
replacement character. -/

/-- The bytes of a text of ASCII characters. -/
def asciiBytes (s : String) : Bytes := s.data.map (fun c => UInt8.ofNat c.toNat)

/-- Whether there is a byte at the position and it lies in the range. -/
def byteIn (s : Bytes) (i lo hi : Nat) : Bool :=
  match s[i]? with
  | some b => decide (lo ≤ b.toNat) && decide (b.toNat ≤ hi)
  | none => false

/-- The size of the well-formed UTF-8 sequence at the head of the bytes, as
`utf8.DecodeRune` finds it; `0` when the bytes are empty or do not start with
one (the rune error of size one). -/
def utf8Size : Bytes → Nat
  | [] => 0
  | b0 :: rest =>
    if b0.toNat < 0x80 then 1
    else if b0.toNat < 0xC2 then 0
    else if b0.toNat < 0xE0 then
      if byteIn rest 0 0x80 0xBF then 2 else 0
    else if b0.toNat < 0xF0 then
      if byteIn rest 0 (if b0.toNat = 0xE0 then 0xA0 else 0x80)
            (if b0.toNat = 0xED then 0x9F else 0xBF) &&
          byteIn rest 1 0x80 0xBF then 3
      else 0
    else if b0.toNat < 0xF5 then
      if byteIn rest 0 (if b0.toNat = 0xF0 then 0x90 else 0x80)
            (if b0.toNat = 0xF4 then 0x8F else 0xBF) &&
          byteIn rest 1 0x80 0xBF && byteIn rest 2 0x80 0xBF then 4
      else 0
    else 0

/-- Whether the bytes are well-formed UTF-8, read with the given fuel. -/
def validUTF8 : Nat → Bytes → Bool
  | _, [] => true
  | 0, _ :: _ => false
  | fuel + 1, b :: rest =>
    match utf8Size (b :: rest) with
    | 0 => false
    | n + 1 => validUTF8 fuel (rest.drop n)

/-- The function `utf8.Valid`. -/
def validText (s : Bytes) : Bool := validUTF8 s.length s

/-- A digit of `"0123456789abcdef"`. -/
def hexDigit (n : Nat) : UInt8 :=
  if n < 10 then UInt8.ofNat (0x30 + n) else UInt8.ofNat (0x61 + (n - 10))

/-- The bytes `\u00XY` for a byte. -/
def escapeByte (b : UInt8) : Bytes :=
  [0x5C, 0x75, 0x30, 0x30, hexDigit (b.toNat / 16), hexDigit (b.toNat % 16)]

/-- What `json.Marshal` writes for a byte below `0x80` of a string: itself
when it is safe in HTML, else an escape.  Backspace and form feed have had the
short escapes `\b` and `\f` since Go 1.22 (`short`), and `\u0008` and `\u000c`
before. -/
def quoteByte (short : Bool) (b : UInt8) : Bytes :=
  if b.toNat = 0x22 ∨ b.toNat = 0x5C then [0x5C, b]
  else if b.toNat = 0x0A then [0x5C, 0x6E]
  else if b.toNat = 0x0D then [0x5C, 0x72]
  else if b.toNat = 0x09 then [0x5C, 0x74]
  else if short = true ∧ b.toNat = 0x08 then [0x5C, 0x62]
  else if short = true ∧ b.toNat = 0x0C then [0x5C, 0x66]
  else if b.toNat < 0x20 ∨ b.toNat = 0x3C ∨ b.toNat = 0x3E ∨ b.toNat = 0x26 then escapeByte b
  else [b]

/-- The inside of the string literal that `json.Marshal` writes for a Go
string: bytes below `0x80` as `quoteByte` has them, well-formed sequences as
they are but for U+2028 and U+2029, which are escaped, and `\ufffd` for every
byte that starts no well-formed sequence. -/
def quoteLoop (short : Bool) : Nat → Bytes → Bytes
  | _, [] => []
  | 0, _ :: _ => []
  | fuel + 1, b :: rest =>
    if b.toNat < 0x80 then quoteByte short b ++ quoteLoop short fuel rest
    else
      match utf8Size (b :: rest) with
      | 0 => asciiBytes "\\ufffd" ++ quoteLoop short fuel rest
      | n + 1 =>
        (if b :: rest.take n = [0xE2, 0x80, 0xA8] then asciiBytes "\\u2028"
         else if b :: rest.take n = [0xE2, 0x80, 0xA9] then asciiBytes "\\u2029"
         else b :: rest.take n) ++ quoteLoop short fuel (rest.drop n)

/-- The string literal that `json.Marshal` writes for a Go string. -/
def quote (short : Bool) (s : Bytes) : Bytes := 0x22 :: quoteLoop short s.length s ++ [0x22]

/-- The elements of a JSON array of strings and its closing bracket. -/
def quoteList (short : Bool) : List Bytes → Bytes
  | [] => [0x5D]
  | [k] => quote short k ++ [0x5D]
  | k :: k1 :: rest => quote short k ++ 0x2C :: quoteList short (k1 :: rest)

/-- The document that `json.Marshal` writes for a `secrets`: the two fields in
the order of the struct, without white space, and `null` for a nil slice, which
is what the empty list stands for. -/
def jsonMarshal (short : Bool) (sec : secrets) : Bytes :=
  asciiBytes "\x7b\"unseal_keys\":" ++
    (if sec.UnsealKeys = [] then asciiBytes "null" else 0x5B :: quoteList short sec.UnsealKeys) ++
    asciiBytes ",\"root_token\":" ++ quote short sec.RootToken ++ asciiBytes "\x7d"

/-- The value of a hexadecimal digit. -/
def hexVal (b : UInt8) : Option Nat :=
  if 0x30 ≤ b.toNat ∧ b.toNat ≤ 0x39 then some (b.toNat - 0x30)
  else if 0x61 ≤ b.toNat ∧ b.toNat ≤ 0x66 then some (b.toNat - 0x61 + 10)
  else if 0x41 ≤ b.toNat ∧ b.toNat ≤ 0x46 then some (b.toNat - 0x41 + 10)
  else none

/-- The number that four hexadecimal digits at the head of the bytes write. -/
def hex4 : Bytes → Option (Nat × Bytes)
  | h1 :: h2 :: h3 :: h4 :: rest =>
    match hexVal h1, hexVal h2, hexVal h3, hexVal h4 with
    | some a, some b, some c, some d => some (((a * 16 + b) * 16 + c) * 16 + d, rest)
    | _, _, _, _ => none
  | _ => none

/-- The function `utf8.EncodeRune`; a surrogate or a number past U+10FFFF gives
the replacement character. -/
def encodeRune (c : Nat) : Bytes :=
  if c < 0x80 then [UInt8.ofNat c]
  else if c < 0x800 then [UInt8.ofNat (0xC0 + c / 64), UInt8.ofNat (0x80 + c % 64)]
  else if (0xD800 ≤ c ∧ c < 0xE000) ∨ 0x10FFFF < c then [0xEF, 0xBF, 0xBD]
  else if c < 0x10000 then
    [UInt8.ofNat (0xE0 + c / 4096), UInt8.ofNat (0x80 + c / 64 % 64), UInt8.ofNat (0x80 + c % 64)]
  else
    [UInt8.ofNat (0xF0 + c / 262144), UInt8.ofNat (0x80 + c / 4096 % 64),
      UInt8.ofNat (0x80 + c / 64 % 64), UInt8.ofNat (0x80 + c % 64)]

/-- The byte that a one-letter escape stands for. -/
def simpleEscape (c : UInt8) : Option UInt8 :=
  if c.toNat = 0x22 ∨ c.toNat = 0x5C ∨ c.toNat = 0x2F then some c
  else if c.toNat = 0x62 then some 0x08
  else if c.toNat = 0x66 then some 0x0C
  else if c.toNat = 0x6E then some 0x0A
  else if c.toNat = 0x72 then some 0x0D
  else if c.toNat = 0x74 then some 0x09
  else none

/-- What a `\u` escape gives, its four digits read as `c` and `rest` following
them: a rune, or for a high surrogate followed by the escape of a low one the
rune of the pair, or the replacement character for a surrogate without its
pair, of which the first escape alone is consumed. -/
def unicodeEscape (c : Nat) (rest : Bytes) : Bytes × Bytes :=
  if 0xD800 ≤ c ∧ c < 0xE000 then
    match rest with
    | b1 :: b2 :: rest1 =>
      if b1.toNat = 0x5C ∧ b2.toNat = 0x75 then
        match hex4 rest1 with
        | some (c2, rest2) =>
          if c < 0xDC00 ∧ 0xDC00 ≤ c2 ∧ c2 < 0xE000 then
            (encodeRune (0x10000 + (c - 0xD800) * 1024 + (c2 - 0xDC00)), rest2)
          else ([0xEF, 0xBF, 0xBD], rest)
        | none => ([0xEF, 0xBF, 0xBD], rest)
      else ([0xEF, 0xBF, 0xBD], rest)
    | _ => ([0xEF, 0xBF, 0xBD], rest)
  else (encodeRune c, rest)

/-- Puts bytes in front of what the rest of a literal gives. -/
def andThen (chunk : Bytes) (r : Option (Bytes × Bytes)) : Option (Bytes × Bytes) :=
  r.map (fun p => (chunk ++ p.1, p.2))

/-- What `json.Unmarshal` reads from a string literal whose opening quote has
been consumed, up to the closing quote: the Go string and the bytes after the
literal.  Escapes are resolved and bytes that start no well-formed UTF-8
sequence become the replacement character; a control character or an unknown
escape is a syntax error. -/
def unquoteLoop : Nat → Bytes → Option (Bytes × Bytes)
  | 0, _ => none
  | _, [] => none
  | fuel + 1, b :: rest =>
    if b.toNat = 0x22 then some ([], rest)
    else if b.toNat = 0x5C then
      match rest with
      | [] => none
      | c :: rest1 =>
        if c.toNat = 0x75 then
          match hex4 rest1 with
          | none => none
          | some (cp, rest2) =>
            andThen (unicodeEscape cp rest2).1 (unquoteLoop fuel (unicodeEscape cp rest2).2)
        else
          match simpleEscape c with
          | some x => andThen [x] (unquoteLoop fuel rest1)
          | none => none
    else if b.toNat < 0x20 then none
    else if b.toNat < 0x80 then andThen [b] (unquoteLoop fuel rest)
    else
      match utf8Size (b :: rest) with
      | 0 => andThen [0xEF, 0xBF, 0xBD] (unquoteLoop fuel rest)
      | n + 1 => andThen (b :: rest.take n) (unquoteLoop fuel (rest.drop n))

/-- The same with fuel for the whole input. -/
def unquote (input : Bytes) : Option (Bytes × Bytes) := unquoteLoop input.length input

/-- Strips a literal from the front of the input. -/
def expect : Bytes → Bytes → Option Bytes
  | [], rest => some rest
  | c :: cs, d :: rest => if c = d then expect cs rest else none
  | _ :: _, [] => none

/-- Reads the elements of a JSON array of strings that is not empty, each a
string literal, up to the closing bracket. -/
def unquoteList : Nat → Bytes → Option (List Bytes × Bytes)
  | 0, _ => none
  | _, [] => none
  | fuel + 1, b :: rest =>
    if b.toNat = 0x22 then
      match unquote rest with
      | some (s, c :: rest1) =>
        if c.toNat = 0x2C then (unquoteList fuel rest1).map (fun p => (s :: p.1, p.2))
        else if c.toNat = 0x5D then some ([s], rest1)
        else none
      | _ => none
    else none

/-- The value of the field `unseal_keys`: `null`, `[]`, or an array of string
literals. -/
def unquoteKeys (input : Bytes) : Option (List Bytes × Bytes) :=
  match expect (asciiBytes "null") input with
  | some rest => some ([], rest)
  | none =>
    match expect (asciiBytes "[]") input with
    | some rest => some ([], rest)
    | none =>
      match expect (asciiBytes "[") input with
      | some rest => unquoteList rest.length rest
      | none => none

/-- What `json.Unmarshal` makes of a document of the layout that `json.Marshal`
writes for a `secrets` (the two fields in order, no white space), when it
succeeds; `none` for a document that it refuses and for one of another layout,
of which nothing is said here. -/
def jsonUnmarshal (b : Bytes) : Option secrets :=
  match expect (asciiBytes "\x7b\"unseal_keys\":") b with
  | none => none
  | some r1 =>
    match unquoteKeys r1 with
    | none => none
    | some (keys, r2) =>
      match expect (asciiBytes ",\"root_token\":\"") r2 with
      | none => none
      | some r3 =>
        match unquote r3 with
        | some (token, r4) => if r4 = asciiBytes "\x7d" then some ⟨keys, token⟩ else none
        | none => none

/-- An outside whose `encoding/json` is the one described above. -/
def Env.encodesJSON (env : Env) (short : Bool) : Prop :=
  (∀ sec, env.marshal sec = .ok (jsonMarshal short sec)) ∧
  (∀ b sec, jsonUnmarshal b = some sec → env.unmarshal b = .ok sec)

/-! ## Outsides for the examples -/

/-- The function `filepath.Dir` for a clean slash-separated path: what comes
before the last slash, `/` for a file in the root and `.` for a bare name. -/
def dirOf (p : String) : String :=
  if p.data.contains '/' then
    match ((p.data.reverse.dropWhile (fun c => c != '/')).drop 1).reverse with
    | [] => "/"
    | d => String.mk d
  else "."

/-- An outside in which nothing fails and every operation takes a millisecond:
the server is initialised and sealed, any share unseals it, and
`encoding/json` is the one described above. -/
def calm : Env where
  readEnvironment := fun _ => none
  newClient := fun _ => none
  sysHealth := fun _ => .ok ⟨true, true, false⟩
  sysInit := fun _ _ => .ok ⟨[asciiBytes "k1"], asciiBytes "root"⟩
  sysUnseal := fun _ _ => .ok ⟨false⟩
  fsFault := fun _ _ => none
  dur := fun _ _ => 1000000
  pickDone := fun _ => true
  marshal := fun sec => .ok (jsonMarshal false sec)
  unmarshal := fun b =>
    match jsonUnmarshal b with
    | some sec => .ok sec
    | none => .error (.msg "json: cannot unmarshal the stash")
  dir := dirOf

/-- A server that stays sealed until the share `k2` is submitted. -/
def needsSecond : Env := { calm with sysUnseal := fun _ share => .ok ⟨share != asciiBytes "k2"⟩ }

/-- A server whose unseal endpoint cannot be reached. -/
def refusing : Env :=
  { calm with sysUnseal := fun _ _ => .error (.msg "connection refused") }

/-- A server whose health endpoint cannot be reached. -/
def down : Env := { calm with sysHealth := fun _ => .error (.msg "connection refused") }

/-- A server that is coming up: the health query fails during the first two
probes and reports an uninitialised server from the third on. -/
def starting : Env :=
  { calm with sysHealth := fun w =>
      if w.calls.count .readEnvironment < 3 then .error (.msg "connection refused")
      else .ok ⟨false, false, false⟩ }

/-- What the probes of `starting` give, in order. -/
def startingOutcomes (i : Nat) : serverStatus × Option GoError :=
  if i < 2 then (.unknown, some (.msg "connection refused")) else (.uninitialized, none)

/-- The empty world at instant zero. -/
def fresh : World := ⟨0, [], []⟩

/-- A world whose stash holds a root token and no unseal key. -/
def emptyKeysStash : World :=
  ⟨0, [("/v/stash", asciiBytes "\x7b\"unseal_keys\":[],\"root_token\":\"t\"\x7d")], []⟩

/-- A world whose stash holds an unseal key and an empty root token. -/
def emptyTokenStash : World :=
  ⟨0, [("/v/stash", asciiBytes "\x7b\"unseal_keys\":[\"k1\"],\"root_token\":\"\"\x7d")], []⟩

/-- A predicate that counts its invocations and returns true on the third. -/
def thirdTime (n : Nat) (w : World) : Bool × Nat × World := (decide (n + 1 = 3), n + 1, w)

/-! ## Notions used in the statements -/

/-- The world after the shares `ks` have been submitted one after another. -/
def submitted (env : Env) (ks : List Bytes) (w : World) : World :=
  ks.foldl (fun w k => w.issue env (.unseal k)) w

/-- An error of the form that `fail` builds in `Load`. -/
def wrappedLoadError (e : Option GoError) : Prop :=
  ∃ cause : String, e = some (.msg ("failed to load secrets stash: " ++ cause))

/-- An event of `retry` with the instant left out. -/
def RetryEvent.untimed : RetryEvent → RetryEvent
  | .invoke _ r => .invoke 0 r
  | .tick => .tick
  | .done => .done

/-- The cadence of `n` invocations of which the last alone succeeds: the
first at once, each later one after a tick of its own. -/
def cadence : Nat → List RetryEvent
  | 0 => []
  | 1 => [.invoke 0 true]
  | n + 2 => .invoke 0 false :: .tick :: cadence (n + 1)

/-- The instants at which the invocations recorded in a log started. -/
def starts : List RetryEvent → List Nat
  | [] => []
  | .invoke s _ :: rest => s :: starts rest
  | .tick :: rest => starts rest
  | .done :: rest => starts rest

/-- Every instant of the list waits for a tick of its own: the first is not
before `tick`, the next not before `tick + interval`, and so on. -/
def waitsForTicks (interval : Nat) : Nat → List Nat → Prop
  | _, [] => True
  | tick, s :: rest => tick ≤ s ∧ waitsForTicks interval (tick + interval) rest

/-- Every instant of the list is at most `gap` after the one before it, which
is `prev` for the first. -/
def within (gap : Nat) : Nat → List Nat → Prop
  | _, [] => True
  | prev, s :: rest => s ≤ prev + gap ∧ within gap s rest

/-- The number of probes made so far: every call of `vaultStatus` starts with
one `config()`, which reads the environment once. -/
def probes (w : World) : Nat := w.calls.count .readEnvironment

/-- The acceptance set as the specification words it: an empty or absent set
stands for any status but `unknown`. -/
def acceptedSet (S : serverStatuses) : List serverStatus :=
  if S = [] then [.uninitialized, .sealed, .standby, .active] else S

/-- An operation that a probe issues. -/
def Call.isProbe (c : Call) : Prop := c = .readEnvironment ∨ c = .newClient ∨ c = .health

/-! ## The share loop -/

theorem submitted_cons (env : Env) (k : Bytes) (ks : List Bytes) (w : World) :
    submitted env (k :: ks) w = submitted env ks (w.issue env (.unseal k)) := rfl

theorem submitted_calls (env : Env) (ks : List Bytes) (w : World) :
    (submitted env ks w).calls = w.calls ++ ks.map Call.unseal := by
  induction ks generalizing w with
  | nil => simp [submitted]
  | cons k ks ih => rw [submitted_cons, ih]; simp [World.issue]

theorem submitted_files (env : Env) (ks : List Bytes) (w : World) :
    (submitted env ks w).files = w.files := by
  induction ks generalizing w with
  | nil => simp [submitted]
  | cons k ks ih => rw [submitted_cons, ih]; simp [World.issue]

/-- While the server answers "still sealed", the loop moves on to the next share. -/
theorem unsealShares_skip (env : Env) (pre rest : List Bytes) (w : World)
    (hpre : ∀ i (h : i < pre.length),
      env.sysUnseal (submitted env (pre.take i) w) (pre.get ⟨i, h⟩) = .ok ⟨true⟩) :
    unsealShares env (pre ++ rest) w = unsealShares env rest (submitted env pre w) := by
  induction pre generalizing w with
  | nil => simp [submitted]
  | cons k ks ih =>
    have h0 := hpre 0 (by simp)
    simp only [List.take_zero, submitted, List.foldl_nil, List.get_eq_getElem,
      List.getElem_cons_zero] at h0
    rw [List.cons_append, unsealShares, h0, submitted_cons]
    simp only [Bool.true_eq_false, beq_iff_eq, if_false]
    apply ih
    intro i h
    have := hpre (i + 1) (by simp; omega)
    simpa [submitted_cons] using this

/-- C1: when no submission errors and the first answer "not sealed" is the one
for share `k`, the loop submits the shares up to `k` in stored order, none
after it, and returns nil. -/
theorem unsealShares_stops_at_first_unsealed (env : Env) (pre : List Bytes) (k : Bytes)
    (post : List Bytes) (w : World)
    (hpre : ∀ i (h : i < pre.length),
      env.sysUnseal (submitted env (pre.take i) w) (pre.get ⟨i, h⟩) = .ok ⟨true⟩)
    (hk : env.sysUnseal (submitted env pre w) k = .ok ⟨false⟩) :
    unsealShares env (pre ++ k :: post) w = (none, submitted env (pre ++ [k]) w) ∧
    (submitted env (pre ++ [k]) w).calls = w.calls ++ (pre ++ [k]).map Call.unseal := by
  refine ⟨?_, submitted_calls env _ w⟩
  rw [unsealShares_skip env pre (k :: post) w hpre, unsealShares, hk]
  simp [submitted, List.foldl_append]

/-- C2: when the submission of share `k` errors and every earlier one was
answered "still sealed", the loop returns that very error and submits no share
after `k`. -/
theorem unsealShares_aborts_on_error (env : Env) (pre : List Bytes) (k : Bytes)
    (post : List Bytes) (w : World) (e : GoError)
    (hpre : ∀ i (h : i < pre.length),
      env.sysUnseal (submitted env (pre.take i) w) (pre.get ⟨i, h⟩) = .ok ⟨true⟩)
    (hk : env.sysUnseal (submitted env pre w) k = .error e) :
    unsealShares env (pre ++ k :: post) w = (some e, submitted env (pre ++ [k]) w) ∧
    (submitted env (pre ++ [k]) w).calls = w.calls ++ (pre ++ [k]).map Call.unseal := by
  refine ⟨?_, submitted_calls env _ w⟩
  rw [unsealShares_skip env pre (k :: post) w hpre, unsealShares, hk]
  simp [submitted, List.foldl_append]

/-! ## The stash -/

theorem validate_no_keys (sec : secrets) (h : sec.UnsealKeys = []) :
    sec.Validate = some (.msg "secrets: no unseal keys found") := by
  simp [secrets.Validate, h]

theorem validate_no_token (sec : secrets) (hk : sec.UnsealKeys ≠ []) (h : sec.RootToken = []) :
    sec.Validate = some (.msg "secrets: no root token found") := by
  cases hks : sec.UnsealKeys with
  | nil => exact absurd hks hk
  | cons k ks => simp [secrets.Validate, hks, h]

theorem validate_ok (sec : secrets) (hk : sec.UnsealKeys ≠ []) (h : sec.RootToken ≠ []) :
    sec.Validate = none := by
  cases hks : sec.UnsealKeys with
  | nil => exact absurd hks hk
  | cons k ks => simp [secrets.Validate, hks, h]

/-- C5, as the code has it: a file that cannot be deserialised gives the
wrapped error and no bundle; a deserialised bundle that fails validation comes
back together with the validation error itself, unwrapped, which says whether
the unseal keys (checked first) or the root token are missing. -/
theorem load_error_forms (env : Env) (ss : secretsStash) (w : World) (b : Bytes)
    (hread : (readFile env ss.Path w).1 = .ok b) :
    (∀ e, env.unmarshal b = .error e →
      (secretsStash.Load env ss w).1 =
        (none, some (.msg ("failed to load secrets stash: " ++ e.Error))) ∧
      wrappedLoadError (secretsStash.Load env ss w).1.2) ∧
    (∀ sec, env.unmarshal b = .ok sec →
      (sec.UnsealKeys = [] → (secretsStash.Load env ss w).1 =
        (some sec, some (.msg "secrets: no unseal keys found"))) ∧
      (sec.UnsealKeys ≠ [] → sec.RootToken = [] → (secretsStash.Load env ss w).1 =
        (some sec, some (.msg "secrets: no root token found"))) ∧
      (sec.UnsealKeys ≠ [] → sec.RootToken ≠ [] → (secretsStash.Load env ss w).1 =
        (some sec, none))) := by
  have hr : readFile env ss.Path w = (.ok b, (readFile env ss.Path w).2) := by
    rw [← hread]
  constructor
  · intro e he
    have : (secretsStash.Load env ss w).1 =
        (none, some (.msg ("failed to load secrets stash: " ++ e.Error))) := by
      rw [secretsStash.Load, hr]; simp [he]
    exact ⟨this, by rw [this]; exact ⟨e.Error, rfl⟩⟩
  · intro sec hs
    have : (secretsStash.Load env ss w).1 = (some sec, sec.Validate) := by
      rw [secretsStash.Load, hr]; simp [hs]
    rw [this]
    refine ⟨fun h => ?_, fun hk h => ?_, fun hk h => ?_⟩
    · rw [validate_no_keys sec h]
    · rw [validate_no_token sec hk h]
    · rw [validate_ok sec hk h]

theorem lookup_store (w : World) (path : String) (data : Bytes) :
    (w.store path data).lookup path = some data := by
  simp [World.store, World.lookup, List.find?]

/-- Saving and loading with a codec that reads back the bundle it wrote. -/
theorem save_load_codec (env : Env) (ss : secretsStash) (sec : secrets) (w w2 : World)
    (b : Bytes)
    (hkeys : sec.UnsealKeys ≠ []) (htoken : sec.RootToken ≠ [])
    (hmarshal : env.marshal sec = .ok b) (hunmarshal : env.unmarshal b = .ok sec)
    (hmkdir : env.fsFault w (.mkdirAll (env.dir ss.Path) 0o755) = none)
    (hwrite : env.fsFault (w.issue env (.mkdirAll (env.dir ss.Path) 0o755))
      (.writeFile ss.Path b 0o600) = none)
    (huntouched : w2.lookup ss.Path = (secretsStash.Save env ss sec w).2.lookup ss.Path)
    (hread : env.fsFault w2 (.readFile ss.Path) = none) :
    (secretsStash.Save env ss sec w).1 = none ∧
    (secretsStash.Load env ss w2).1 = (some sec, none) := by
  have hsave : secretsStash.Save env ss sec w =
      (none, ((w.issue env (.mkdirAll (env.dir ss.Path) 0o755)).issue env
        (.writeFile ss.Path b 0o600)).store ss.Path b) := by
    simp [secretsStash.Save, hmarshal, mkdirAll, writeFile, hmkdir, hwrite]
  rw [hsave, lookup_store] at huntouched
  refine ⟨by rw [hsave], ?_⟩
  simp [secretsStash.Load, readFile, hread, huntouched, hunmarshal, validate_ok sec hkeys htoken]

/-! ## The status probe -/

/-- C10: a health report that arrives is classified by the rule, without
error; a failure of the configuration, of the client construction or of the
health query gives `unknown` and the error of the failed step. -/
theorem vaultStatus_classifies (env : Env) (w : World) :
    (∀ e, env.readEnvironment w = some e →
      (vaultStatus env w).1 = (.unknown, some (.msg ("vault config: " ++ e.Error)))) ∧
    (env.readEnvironment w = none →
      (∀ e, env.newClient (w.issue env .readEnvironment) = some e →
        (vaultStatus env w).1 = (.unknown, some e)) ∧
      (env.newClient (w.issue env .readEnvironment) = none →
        (∀ e, env.sysHealth ((w.issue env .readEnvironment).issue env .newClient) = .error e →
          (vaultStatus env w).1 = (.unknown, some e)) ∧
        (∀ res, env.sysHealth ((w.issue env .readEnvironment).issue env .newClient) = .ok res →
          (vaultStatus env w).1.2 = none ∧
          (res.Initialized = true → res.Sealed = true → (vaultStatus env w).1.1 = .sealed) ∧
          (res.Initialized = true → res.Sealed = false → res.Standby = true →
            (vaultStatus env w).1.1 = .standby) ∧
          (res.Initialized = true → res.Sealed = false → res.Standby = false →
            (vaultStatus env w).1.1 = .active) ∧
          (res.Initialized = false → (vaultStatus env w).1.1 = .uninitialized)))) := by
  refine ⟨fun e he => ?_, fun hc => ⟨fun e he => ?_, fun hn => ⟨fun e he => ?_, fun res hres => ?_⟩⟩⟩
  · simp [vaultStatus, config, he]
  · simp [vaultStatus, config, hc, newClient, he]
  · simp [vaultStatus, config, hc, newClient, hn, he]
  · obtain ⟨i, s, b⟩ := res
    cases i <;> cases s <;> cases b <;> simp [vaultStatus, config, hc, newClient, hn, hres]

/-! ## `select` -/

theorem isDone_background (t : Nat) : Context.background.isDone t = false := rfl

theorem isDone_mono (ctx : Context) (s t : Nat) (hst : s ≤ t) (h : ctx.isDone t = false) :
    ctx.isDone s = false := by
  unfold Context.isDone at *
  cases hd : ctx.doneAt with
  | none => rfl
  | some d =>
    rw [hd] at h
    simp only [decide_eq_false_iff_not, not_le] at *
    omega

theorem catchUp_next (tk : Ticker) (now : Nat) (hb : (tk.catchUp now).buffered = false) :
    tk.catchUp now = tk ∧ now < tk.next := by
  unfold Ticker.catchUp at hb ⊢
  by_cases hle : tk.next ≤ now
  · simp [hle] at hb
  · simp only [hle, if_false]; exact ⟨trivial, by omega⟩

theorem wakeAt_ge (ctx : Context) (tk : Ticker) (now : Nat) :
    now ≤ wakeAt ctx (tk.catchUp now) now := by
  unfold wakeAt
  by_cases hb : ((tk.catchUp now).buffered || ctx.isDone now) = true
  · rw [if_pos hb]
  · rw [if_neg hb]
    simp only [Bool.or_eq_true, not_or, Bool.not_eq_true] at hb
    have hnext := catchUp_next tk now hb.1
    rw [hnext.1]
    cases hd : ctx.doneAt with
    | none => simp only []; omega
    | some d =>
      have := hb.2
      unfold Context.isDone at this
      rw [hd] at this
      simp only [decide_eq_false_iff_not, not_le] at this
      simp only [le_min_iff]
      omega

theorem wakeAt_background (tk : Ticker) (now : Nat) :
    wakeAt Context.background tk now = if tk.buffered then now else tk.next := by
  unfold wakeAt
  cases hb : tk.buffered <;> simp [Context.isDone, Context.background]

/-- A `select` changes nothing of the world but the clock, which does not go back. -/
theorem select_world (env : Env) (ctx : Context) (tk : Ticker) (w : World) :
    (select env ctx tk w).2.2 = { w with now := (select env ctx tk w).2.2.now } ∧
    w.now ≤ (select env ctx tk w).2.2.now := by
  unfold select
  simp only []
  split_ifs <;> exact ⟨rfl, wakeAt_ge ctx tk w.now⟩

/-- With a context that is never done, a `select` takes a tick. -/
theorem select_background (env : Env) (tk : Ticker) (w : World) :
    (select env Context.background tk w).1 = .tick := by
  unfold select
  simp [isDone_background]

theorem wakeAt_not_done (ctx : Context) (tk : Ticker) (now : Nat)
    (h : ctx.isDone (wakeAt Context.background (tk.catchUp now) now) = false) :
    wakeAt ctx (tk.catchUp now) now = wakeAt Context.background (tk.catchUp now) now := by
  have hw := isDone_mono ctx _ _ (wakeAt_ge Context.background tk now) h
  rw [wakeAt_background] at h ⊢
  unfold wakeAt
  by_cases hb : (tk.catchUp now).buffered = true
  · simp [hb]
  · simp only [hb, hw, Bool.or_false, Bool.false_eq_true, if_false] at h ⊢
    cases hd : ctx.doneAt with
    | none => rfl
    | some d =>
      unfold Context.isDone at h
      rw [hd] at h
      simp only [decide_eq_false_iff_not, not_le] at h
      simp only [min_eq_right_iff]; omega

/-- A context that is not yet done when the tick is taken plays no part in the `select`. -/
theorem select_not_done (env : Env) (ctx : Context) (tk : Ticker) (w : World)
    (h : ctx.isDone (select env Context.background tk w).2.2.now = false) :
    select env ctx tk w = select env Context.background tk w := by
  have hnow : (select env Context.background tk w).2.2.now =
      wakeAt Context.background (tk.catchUp w.now) w.now := by
    unfold select
    simp [isDone_background]
  rw [hnow] at h
  have hwake := wakeAt_not_done ctx tk w.now h
  unfold select
  simp only [hwake, h, isDone_background]

/-- A context that is done makes the `select` that follows `time.NewTicker` take
the done case at once. -/
theorem select_done (env : Env) (ctx : Context) (interval : Nat) (w : World)
    (hpos : 0 < interval) (h : ctx.isDone w.now = true) :
    select env ctx (Ticker.new w.now interval) w = (.done, Ticker.new w.now interval, w) := by
  have hcu : (Ticker.new w.now interval).catchUp w.now = Ticker.new w.now interval := by
    unfold Ticker.catchUp Ticker.new
    simp only [ite_eq_right_iff]
    intro hle
    omega
  have hwake : wakeAt ctx (Ticker.new w.now interval) w.now = w.now := by
    unfold wakeAt
    simp [h]
  unfold select
  simp only [hcu, hwake, h, if_true]
  simp [Ticker.new]

/-! ## `retry` -/

theorem select_background_step (env : Env) (tk : Ticker) (w : World) :
    ∃ tk1 w1, select env Context.background tk w = (.tick, tk1, w1) ∧
      w1 = { w with now := w1.now } ∧ w.now ≤ w1.now := by
  refine ⟨(select env Context.background tk w).2.1, (select env Context.background tk w).2.2,
    ?_, (select_world env Context.background tk w).1, (select_world env Context.background tk w).2⟩
  rw [← select_background env tk w]

theorem retryLoop_tick {α : Type} (env : Env) (ctx : Context)
    (work : α → World → Bool × α × World) (fuel : Nat) (tk : Ticker) (a : α) (w : World)
    (log : List RetryEvent) (tk1 : Ticker) (w1 : World)
    (hsel : select env ctx tk w = (.tick, tk1, w1)) :
    retryLoop env ctx work (fuel + 1) tk a w log =
      if (work a w1).1 then
        some (none, (work a w1).2.1, (work a w1).2.2, log ++ [.tick, .invoke w1.now true])
      else retryLoop env ctx work fuel tk1 (work a w1).2.1 (work a w1).2.2
        (log ++ [.tick, .invoke w1.now false]) := by
  rw [retryLoop, hsel]
  simp only []
  rcases hw : work a w1 with ⟨b, a2, w2⟩
  cases b <;> simp

theorem retryLoop_done {α : Type} (env : Env) (ctx : Context)
    (work : α → World → Bool × α × World) (fuel : Nat) (tk : Ticker) (a : α) (w : World)
    (log : List RetryEvent) (tk1 : Ticker) (w1 : World)
    (hsel : select env ctx tk w = (.done, tk1, w1)) :
    retryLoop env ctx work (fuel + 1) tk a w log = some (some ctx.err, a, w1, log ++ [.done]) := by
  rw [retryLoop, hsel]

theorem retry_first {α : Type} (env : Env) (fuel : Nat) (ctx : Context) (interval : Nat)
    (work : α → World → Bool × α × World) (a : α) (w : World) :
    retry env fuel ctx interval work a w =
      if (work a w).1 then some (none, (work a w).2.1, (work a w).2.2, [.invoke w.now true])
      else if interval = 0 then none
      else retryLoop env ctx work fuel (Ticker.new (work a w).2.2.now interval)
        (work a w).2.1 (work a w).2.2 [.invoke w.now false] := by
  rw [retry]
  rcases hw : work a w with ⟨b, a2, w2⟩
  cases b <;> simp

theorem starts_append (l1 l2 : List RetryEvent) : starts (l1 ++ l2) = starts l1 ++ starts l2 := by
  induction l1 with
  | nil => rfl
  | cons e es ih => cases e <;> simp [starts, ih]

theorem waitsForTicks_get (interval : Nat) (l : List Nat) :
    ∀ (tick k s : Nat), waitsForTicks interval tick l → l[k]? = some s →
      tick + k * interval ≤ s := by
  induction l with
  | nil => intro tick k s _ h; simp at h
  | cons x xs ih =>
    intro tick k s hw h
    cases k with
    | zero =>
      simp only [List.getElem?_cons_zero, Option.some.injEq] at h
      subst h
      simpa using hw.1
    | succ k =>
      simp only [List.getElem?_cons_succ] at h
      have := ih (tick + interval) k s hw.2 h
      rw [Nat.succ_mul]
      omega

theorem within_get (gap : Nat) (l : List Nat) :
    ∀ (prev k s s1 : Nat), within gap prev l → (prev :: l)[k]? = some s → l[k]? = some s1 →
      s1 ≤ s + gap := by
  induction l with
  | nil => intro prev k s s1 _ _ h; simp at h
  | cons x xs ih =>
    intro prev k s s1 hw hs hs1
    cases k with
    | zero =>
      simp only [List.getElem?_cons_zero, Option.some.injEq] at hs hs1
      subst hs hs1
      exact hw.1
    | succ k =>
      simp only [List.getElem?_cons_succ] at hs hs1
      exact ih x k s s1 hw.2 hs hs1

/-- With a context that is never done and no tick waiting in the channel, a
`select` returns at the later of now and the next tick, and the tick after it
is at least one interval later, at most one interval after the return. -/
theorem select_background_unbuffered (env : Env) (tk : Ticker) (w : World)
    (hb : tk.buffered = false) (hpos : 0 < tk.interval) :
    ∃ tk1, select env Context.background tk w = (.tick, tk1, { w with now := max w.now tk.next }) ∧
      tk1.buffered = false ∧ tk1.interval = tk.interval ∧
      tk.next + tk.interval ≤ tk1.next ∧ tk1.next ≤ max w.now tk.next + tk.interval := by
  by_cases hle : tk.next ≤ w.now
  · have hmax : max w.now tk.next = w.now := max_eq_left hle
    have hlt : w.now - tk.next < tk.interval * ((w.now - tk.next) / tk.interval + 1) :=
      Nat.lt_mul_div_succ _ hpos
    have hdm : (w.now - tk.next) / tk.interval * tk.interval ≤ w.now - tk.next :=
      Nat.div_mul_le_self _ _
    have hc1 : tk.catchUp w.now =
        ⟨tk.next + ((w.now - tk.next) / tk.interval + 1) * tk.interval, tk.interval, true⟩ := by
      unfold Ticker.catchUp; simp [hle]
    have hgt : ¬ (tk.next + ((w.now - tk.next) / tk.interval + 1) * tk.interval ≤ w.now) := by
      rw [Nat.mul_comm] at hlt ⊢
      rw [Nat.mul_comm] at hlt
      omega
    have hc2 : (tk.catchUp w.now).catchUp w.now = tk.catchUp w.now := by
      rw [hc1]; unfold Ticker.catchUp; simp only [hgt, if_false]
    refine ⟨⟨(tk.catchUp w.now).next, (tk.catchUp w.now).interval, false⟩, ?_, rfl,
      by rw [hc1], ?_, ?_⟩
    · unfold select
      have hwake : wakeAt Context.background (tk.catchUp w.now) w.now = w.now := by
        rw [wakeAt_background, hc1]; simp
      simp only [hwake, hc2, isDone_background, hmax]
      simp
    · rw [hc1]; simp only [Nat.add_mul, one_mul]; omega
    · rw [hc1, hmax]; simp only [Nat.add_mul, one_mul]; omega
  · have hmax : max w.now tk.next = tk.next := max_eq_right (by omega)
    have hc1 : tk.catchUp w.now = tk := by
      unfold Ticker.catchUp; simp [hle]
    have hc2 : tk.catchUp tk.next = ⟨tk.next + tk.interval, tk.interval, true⟩ := by
      unfold Ticker.catchUp; simp
    refine ⟨⟨tk.next + tk.interval, tk.interval, false⟩, ?_, rfl, rfl, le_refl _, by rw [hmax]⟩
    unfold select
    have hwake : wakeAt Context.background tk w.now = tk.next := by
      rw [wakeAt_background]; simp [hb]
    simp only [hc1, hwake, hc2, isDone_background, hmax]
    simp

/-- The loop of `retry` waits for a tick of its own before each invocation. -/
theorem retryLoop_waits {α : Type} (env : Env) (work : α → World → Bool × α × World)
    (interval : Nat) (hpos : 0 < interval) :
    ∀ (fuel : Nat) (tk : Ticker) (a : α) (w : World) (log : List RetryEvent)
      (r : Option GoError × α × World × List RetryEvent) (tick : Nat),
      tk.buffered = false → tk.interval = interval → tick ≤ tk.next →
      retryLoop env Context.background work fuel tk a w log = some r →
      ∃ evs, r.2.2.2 = log ++ evs ∧ waitsForTicks interval tick (starts evs) := by
  intro fuel
  induction fuel with
  | zero => intro tk a w log r tick _ _ _ h; simp [retryLoop] at h
  | succ f ih =>
    intro tk a w log r tick hb hi hlb h
    obtain ⟨tk1, hsel, hb1, hi1, hn1, -⟩ :=
      select_background_unbuffered env tk w hb (by rw [hi]; exact hpos)
    rw [retryLoop_tick env _ work f tk a w log _ _ hsel] at h
    have hs : tick ≤ max w.now tk.next := le_trans hlb (le_max_right _ _)
    cases hwk : (work a { w with now := max w.now tk.next }).1 with
    | true =>
      rw [hwk] at h; simp only [if_true, Option.some.injEq] at h
      subst h
      exact ⟨_, rfl, ⟨hs, trivial⟩⟩
    | false =>
      rw [hwk] at h; simp only [Bool.false_eq_true, if_false] at h
      obtain ⟨evs, hlog, hw⟩ := ih tk1 _ _ _ r (tick + interval) hb1 (hi1.trans hi)
        (by rw [hi] at hn1; omega) h
      refine ⟨[.tick, .invoke (max w.now tk.next) false] ++ evs, by rw [hlog]; simp, ?_⟩
      exact ⟨hs, hw⟩

/-- The loop of `retry` does not wait longer than one interval after the
invocation before. -/
theorem retryLoop_paces {α : Type} (env : Env) (work : α → World → Bool × α × World)
    (interval D : Nat) (hpos : 0 < interval)
    (hclock : ∀ a w, w.now ≤ (work a w).2.2.now)
    (hD : ∀ a w, (work a w).2.2.now ≤ w.now + D) :
    ∀ (fuel : Nat) (tk : Ticker) (a : α) (w : World) (log : List RetryEvent)
      (r : Option GoError × α × World × List RetryEvent) (prev : Nat),
      tk.buffered = false → tk.interval = interval → tk.next ≤ w.now + interval →
      w.now ≤ prev + D →
      retryLoop env Context.background work fuel tk a w log = some r →
      ∃ evs, r.2.2.2 = log ++ evs ∧ within (D + interval) prev (starts evs) := by
  intro fuel
  induction fuel with
  | zero => intro tk a w log r prev _ _ _ _ h; simp [retryLoop] at h
  | succ f ih =>
    intro tk a w log r prev hb hi hnext hprev h
    obtain ⟨tk1, hsel, hb1, hi1, -, hn1⟩ :=
      select_background_unbuffered env tk w hb (by rw [hi]; exact hpos)
    rw [retryLoop_tick env _ work f tk a w log _ _ hsel] at h
    have hs : max w.now tk.next ≤ prev + (D + interval) := by
      rcases le_total w.now tk.next with h1 | h1
      · rw [max_eq_right h1]; omega
      · rw [max_eq_left h1]; omega
    cases hwk : (work a { w with now := max w.now tk.next }).1 with
    | true =>
      rw [hwk] at h; simp only [if_true, Option.some.injEq] at h
      subst h
      exact ⟨_, rfl, ⟨hs, trivial⟩⟩
    | false =>
      rw [hwk] at h; simp only [Bool.false_eq_true, if_false] at h
      have hc := hclock a { w with now := max w.now tk.next }
      have hd := hD a { w with now := max w.now tk.next }
      simp only [] at hc hd
      obtain ⟨evs, hlog, hw⟩ := ih tk1 _ _ _ r (max w.now tk.next) hb1 (hi1.trans hi)
        (by rw [hi] at hn1; omega) hd h
      refine ⟨[.tick, .invoke (max w.now tk.next) false] ++ evs, by rw [hlog]; simp, ?_⟩
      exact ⟨hs, hw⟩

/-- The loop of `retry` when `work` keeps count of its invocations and succeeds
on the `N`-th alone: with `k` failures still to come, the loop takes `k + 1`
ticks, invokes `work` after each, and returns nil; a context that is not done
when the last invocation starts changes nothing. -/
theorem retryLoop_counts {α : Type} (env : Env) (work : α → World → Bool × α × World)
    (cnt : α → World → Nat) (lo N : Nat) (Q : α → World → Prop)
    (hcount : ∀ a w, cnt (work a w).2.1 (work a w).2.2 = cnt a w + 1)
    (hnow : ∀ a w t, cnt a { w with now := t } = cnt a w)
    (hfalse : ∀ a w, lo ≤ cnt a w → cnt a w + 1 < N → (work a w).1 = false)
    (htrue : ∀ a w, cnt a w + 1 = N → (work a w).1 = true)
    (hclock : ∀ a w, w.now ≤ (work a w).2.2.now)
    (hQ : ∀ a w, Q (work a w).2.1 (work a w).2.2) :
    ∀ (k fuel : Nat) (tk : Ticker) (a : α) (w : World) (log : List RetryEvent),
      lo ≤ cnt a w → cnt a w + k + 1 = N → k < fuel →
      ∃ a1 w1 evs tN,
        retryLoop env Context.background work fuel tk a w log = some (none, a1, w1, log ++ evs) ∧
        cnt a1 w1 = N ∧ Q a1 w1 ∧ evs.map RetryEvent.untimed = .tick :: cadence (k + 1) ∧
        evs.getLast? = some (.invoke tN true) ∧ w.now ≤ tN ∧ tN ≤ w1.now ∧
        ∀ ctx : Context, ctx.isDone tN = false →
          retryLoop env ctx work fuel tk a w log = some (none, a1, w1, log ++ evs) := by
  intro k
  induction k with
  | zero =>
    intro fuel tk a w log hlo hk hfuel
    obtain ⟨f, rfl⟩ : ∃ f, fuel = f + 1 := ⟨fuel - 1, by omega⟩
    obtain ⟨tk1, w1, hsel, hw1, hle⟩ := select_background_step env tk w
    have hc : cnt a w1 = cnt a w := by rw [hw1]; exact hnow a w _
    have ht := htrue a w1 (by omega)
    refine ⟨(work a w1).2.1, (work a w1).2.2, [.tick, .invoke w1.now true], w1.now,
      ?_, ?_, hQ a w1, rfl, rfl, hle, hclock a w1, ?_⟩
    · rw [retryLoop_tick env _ work f tk a w log _ _ hsel, ht]; rfl
    · rw [hcount]; omega
    · intro ctx hctx
      have := select_not_done env ctx tk w (by rw [hsel]; exact hctx)
      rw [retryLoop_tick env _ work f tk a w log _ _ (this.trans hsel), ht]; rfl
  | succ k ih =>
    intro fuel tk a w log hlo hk hfuel
    obtain ⟨f, rfl⟩ : ∃ f, fuel = f + 1 := ⟨fuel - 1, by omega⟩
    obtain ⟨tk1, w1, hsel, hw1, hle⟩ := select_background_step env tk w
    have hc : cnt a w1 = cnt a w := by rw [hw1]; exact hnow a w _
    have hf := hfalse a w1 (by omega) (by omega)
    obtain ⟨a2, w2, evs, tN, hrun, hcnt, hq, hshape, hlast, hle2, hle3, hctx⟩ :=
      ih f tk1 (work a w1).2.1 (work a w1).2.2 (log ++ [.tick, .invoke w1.now false])
        (by rw [hcount]; omega) (by rw [hcount]; omega) (by omega)
    have hcl := hclock a w1
    refine ⟨a2, w2, [.tick, .invoke w1.now false] ++ evs, tN, ?_, hcnt, hq, ?_, ?_, by omega,
      hle3, ?_⟩
    · rw [retryLoop_tick env _ work f tk a w log _ _ hsel, hf]
      simpa using hrun
    · simp [hshape, RetryEvent.untimed, cadence]
    · cases evs with
      | nil => simp at hlast
      | cons e es => simpa using hlast
    · intro ctx hd
      have hd1 : ctx.isDone w1.now = false := isDone_mono ctx _ _ (by omega) hd
      have := select_not_done env ctx tk w (by rw [hsel]; exact hd1)
      rw [retryLoop_tick env _ work f tk a w log _ _ (this.trans hsel), hf]
      simpa using hctx ctx hd

/-- The whole of `retry` under the same assumptions, started before the first
invocation. -/
theorem retry_counts {α : Type} (env : Env) (work : α → World → Bool × α × World)
    (cnt : α → World → Nat) (lo N : Nat) (Q : α → World → Prop)
    (hcount : ∀ a w, cnt (work a w).2.1 (work a w).2.2 = cnt a w + 1)
    (hnow : ∀ a w t, cnt a { w with now := t } = cnt a w)
    (hfalse : ∀ a w, lo ≤ cnt a w → cnt a w + 1 < N → (work a w).1 = false)
    (htrue : ∀ a w, cnt a w + 1 = N → (work a w).1 = true)
    (hclock : ∀ a w, w.now ≤ (work a w).2.2.now)
    (hQ : ∀ a w, Q (work a w).2.1 (work a w).2.2)
    (k fuel interval : Nat) (a : α) (w : World)
    (hlo : lo ≤ cnt a w) (hk : cnt a w + k + 1 = N) (hfuel : k ≤ fuel) (hpos : 0 < interval) :
    ∃ a1 w1 log tN,
      retry env fuel Context.background interval work a w = some (none, a1, w1, log) ∧
      cnt a1 w1 = N ∧ Q a1 w1 ∧ log.map RetryEvent.untimed = cadence (k + 1) ∧
      log.getLast? = some (.invoke tN true) ∧ w.now ≤ tN ∧ tN ≤ w1.now ∧
      ∀ ctx : Context, ctx.isDone tN = false →
        retry env fuel ctx interval work a w = some (none, a1, w1, log) := by
  cases k with
  | zero =>
    have ht := htrue a w (by omega)
    refine ⟨(work a w).2.1, (work a w).2.2, [.invoke w.now true], w.now, ?_, ?_, hQ a w, rfl,
      rfl, le_refl _, hclock a w, ?_⟩
    · rw [retry_first, ht]; rfl
    · rw [hcount]; omega
    · intro ctx _
      rw [retry_first, ht]; rfl
  | succ k =>
    have hf := hfalse a w hlo (by omega)
    obtain ⟨a2, w2, evs, tN, hrun, hcnt, hq, hshape, hlast, hle2, hle3, hctx⟩ :=
      retryLoop_counts env work cnt lo N Q hcount hnow hfalse htrue hclock hQ k fuel
        (Ticker.new (work a w).2.2.now interval) (work a w).2.1 (work a w).2.2
        [.invoke w.now false] (by rw [hcount]; omega) (by rw [hcount]; omega) (by omega)
    have hcl := hclock a w
    have hi : ¬ interval = 0 := by omega
    refine ⟨a2, w2, [.invoke w.now false] ++ evs, tN, ?_, hcnt, hq, ?_, ?_, by omega, hle3, ?_⟩
    · rw [retry_first, hf]; simpa [hi] using hrun
    · simp [hshape, RetryEvent.untimed, cadence]
    · cases evs with
      | nil => simp at hlast
      | cons e es => simpa using hlast
    · intro ctx hd
      rw [retry_first, hf]; simpa [hi] using hctx ctx hd

/-- The instants of a run of `retry` whose context is never done: the first
invocation starts at once; each later one waits for a tick of its own, the
`k`-th of them for the `k`-th tick of the ticker made when the first invocation
returned; and none waits longer than one interval after the invocation before
it returned. -/
theorem retry_timing {α : Type} (env : Env) (fuel interval : Nat)
    (work : α → World → Bool × α × World) (a : α) (w : World)
    (r : Option GoError × α × World × List RetryEvent)
    (hpos : 0 < interval) (hclock : ∀ a w, w.now ≤ (work a w).2.2.now)
    (h : retry env fuel Context.background interval work a w = some r) :
    ∃ later, starts r.2.2.2 = w.now :: later ∧
      (∀ (k s : Nat), later[k]? = some s → (work a w).2.2.now + (k + 1) * interval ≤ s) ∧
      (∀ D, (∀ a w, (work a w).2.2.now ≤ w.now + D) →
        ∀ (k s s1 : Nat), (w.now :: later)[k]? = some s → later[k]? = some s1 →
          s1 ≤ s + D + interval) := by
  rw [retry_first] at h
  cases hb : (work a w).1 with
  | true =>
    rw [hb] at h; simp only [if_true, Option.some.injEq] at h
    subst h
    exact ⟨[], rfl, by simp, by simp⟩
  | false =>
    rw [hb] at h
    have hi : ¬ interval = 0 := by omega
    simp only [Bool.false_eq_true, if_false, hi] at h
    obtain ⟨evs, hlog, hw⟩ := retryLoop_waits env work interval hpos fuel _ _ _ _ r
      ((work a w).2.2.now + interval) rfl rfl (le_refl _) h
    refine ⟨starts evs, by rw [hlog, starts_append]; rfl, ?_, ?_⟩
    · intro k s hk
      have := waitsForTicks_get interval _ _ k s hw hk
      rw [Nat.add_mul]; omega
    · intro D hD k s s1 hs hs1
      obtain ⟨evs2, hlog2, hw2⟩ := retryLoop_paces env work interval D hpos hclock hD fuel
        _ _ _ _ r w.now rfl rfl (le_refl _) (hD a w) h
      have hevs : evs2 = evs := List.append_cancel_left (hlog2.symm.trans hlog)
      subst hevs
      have := within_get (D + interval) _ w.now k s s1 hw2 hs hs1
      omega

/-- C7, as the code has it: with a positive interval, a predicate that counts
its invocations and returns true on the `N`-th alone is invoked `N` times, one
after another, and `retry` then returns nil: the first invocation starts at
once, before any tick; the `k`-th later one is made on a tick of its own, not
before `k` intervals after the ticker was made and not later than one interval
after the invocation before it returned; a context that is not done when the
`N`-th invocation starts changes nothing. -/
theorem retry_cadence {α : Type} (env : Env) (fuel interval : Nat)
    (work : α → World → Bool × α × World) (cnt : α → Nat) (N : Nat) (a : α) (w : World)
    (hN : 1 ≤ N) (hpos : 0 < interval) (hfuel : N ≤ fuel) (hstart : cnt a = 0)
    (hcount : ∀ a w, cnt (work a w).2.1 = cnt a + 1)
    (hresult : ∀ a w, (work a w).1 = decide (cnt a + 1 = N))
    (hclock : ∀ a w, w.now ≤ (work a w).2.2.now) :
    ∃ a1 w1 log tN later,
      retry env fuel Context.background interval work a w = some (none, a1, w1, log) ∧
      cnt a1 = N ∧ log.map RetryEvent.untimed = cadence N ∧
      log.getLast? = some (.invoke tN true) ∧
      starts log = w.now :: later ∧
      (∀ (k s : Nat), later[k]? = some s → (work a w).2.2.now + (k + 1) * interval ≤ s) ∧
      (∀ D, (∀ a w, (work a w).2.2.now ≤ w.now + D) →
        ∀ (k s s1 : Nat), (w.now :: later)[k]? = some s → later[k]? = some s1 →
          s1 ≤ s + D + interval) ∧
      ∀ ctx : Context, ctx.isDone tN = false →
        retry env fuel ctx interval work a w = some (none, a1, w1, log) := by
  obtain ⟨k, rfl⟩ : ∃ k, N = k + 1 := ⟨N - 1, by omega⟩
  obtain ⟨a1, w1, log, tN, hrun, hcnt, -, hshape, hlast, -, -, hctx⟩ :=
    retry_counts env work (fun a _ => cnt a) 0 (k + 1) (fun _ _ => True)
      (fun a w => hcount a w) (fun _ _ _ => rfl)
      (fun a w _ h => by rw [hresult]; simp only [decide_eq_false_iff_not]; intro h2; simp only [] at h; omega)
      (fun a w h => by rw [hresult]; simp only [decide_eq_true_eq]; simpa using h)
      hclock (fun _ _ => trivial) k fuel interval a w (Nat.zero_le _) (by simp [hstart])
      (by omega) hpos
  obtain ⟨later, hst, hlo, hup⟩ := retry_timing env fuel interval work a w _ hpos hclock hrun
  exact ⟨a1, w1, log, tN, later, hrun, hcnt, hshape, hlast, hst, hlo, hup, hctx⟩

theorem isDone_mono_true (ctx : Context) (s t : Nat) (hst : s ≤ t) (h : ctx.isDone s = true) :
    ctx.isDone t = true := by
  cases ht : ctx.isDone t with
  | true => rfl
  | false => rw [isDone_mono ctx s t hst ht] at h; exact absurd h (by decide)

/-- C3, as the code has it: in a scope that is done before `retry` is called,
the predicate is still invoked once; if it returns true `retry` returns nil,
and if not `retry` returns the scope's error without invoking it again. -/
theorem retry_in_done_scope {α : Type} (env : Env) (fuel interval : Nat) (ctx : Context)
    (work : α → World → Bool × α × World) (a : α) (w : World)
    (hfuel : 0 < fuel) (hpos : 0 < interval) (hdone : ctx.isDone w.now = true)
    (hclock : w.now ≤ (work a w).2.2.now) :
    retry env fuel ctx interval work a w =
      if (work a w).1 then some (none, (work a w).2.1, (work a w).2.2, [.invoke w.now true])
      else some (some ctx.err, (work a w).2.1, (work a w).2.2, [.invoke w.now false, .done]) := by
  obtain ⟨f, rfl⟩ : ∃ f, fuel = f + 1 := ⟨fuel - 1, by omega⟩
  have hi : ¬ interval = 0 := by omega
  have hd := isDone_mono_true ctx _ _ hclock hdone
  rw [retry_first]
  cases hb : (work a w).1 with
  | true => simp
  | false =>
    simp only [Bool.false_eq_true, if_false, hi]
    rw [retryLoop_done env ctx work f _ _ _ _ _ _ (select_done env ctx interval _ hpos hd)]
    simp

/-! ## The readiness wait -/

theorem vaultStatus_effects (env : Env) (w : World) :
    (vaultStatus env w).2.files = w.files ∧ w.now ≤ (vaultStatus env w).2.now ∧
    (∃ added, (vaultStatus env w).2.calls = w.calls ++ .readEnvironment :: added ∧
      ∀ c ∈ added, c = Call.newClient ∨ c = Call.health) ∧
    ((vaultStatus env w).1.1 ≠ .unknown → (vaultStatus env w).1.2 = none) := by
  unfold vaultStatus config newClient
  cases h1 : env.readEnvironment w with
  | some e => exact ⟨rfl, by simp [World.issue], ⟨[], by simp [World.issue], by simp⟩, by simp⟩
  | none =>
    simp only []
    cases h2 : env.newClient (w.issue env .readEnvironment) with
    | some e =>
      exact ⟨rfl, by simp only [World.issue]; omega, ⟨[.newClient], by simp [World.issue], by simp⟩,
        by simp⟩
    | none =>
      simp only []
      cases h3 : env.sysHealth ((w.issue env .readEnvironment).issue env .newClient) with
      | error e =>
        exact ⟨rfl, by simp only [World.issue]; omega,
          ⟨[.newClient, .health], by simp [World.issue], by simp⟩, by simp⟩
      | ok res =>
        simp only []
        refine ⟨by split_ifs <;> rfl, by split_ifs <;> (simp only [World.issue]; omega),
          ⟨[.newClient, .health], by split_ifs <;> simp [World.issue], by simp⟩,
          by split_ifs <;> simp⟩

theorem probes_vaultStatus (env : Env) (w : World) :
    probes (vaultStatus env w).2 = probes w + 1 := by
  obtain ⟨-, -, ⟨added, hc, hadd⟩, -⟩ := vaultStatus_effects env w
  unfold probes
  rw [hc, List.count_append, List.count_cons_self]
  have : List.count Call.readEnvironment added = 0 := by
    rw [List.count_eq_zero]
    intro hmem
    rcases hadd _ hmem with h | h <;> exact Call.noConfusion h
  omega

theorem statusWork_eq (env : Env) (S : serverStatuses) (a : serverStatus × Option GoError)
    (w : World) :
    statusWork env S a w =
      (serverStatuses.Has S (vaultStatus env w).1.1, (vaultStatus env w).1, (vaultStatus env w).2) := by
  unfold statusWork
  rcases vaultStatus env w with ⟨⟨st, e⟩, w1⟩
  cases h : serverStatuses.Has S st <;> simp [h]

theorem has_iff_mem (S : serverStatuses) (x : serverStatus) :
    serverStatuses.Has S x = true ↔ x ∈ S := by
  induction S with
  | nil => simp [serverStatuses.Has]
  | cons y ys ih =>
    unfold serverStatuses.Has
    by_cases h : y = x
    · simp [h]
    · simp only [h, if_false, ih, List.mem_cons]
      constructor
      · exact Or.inr
      · rintro (h1 | h1)
        · exact absurd h1.symm h
        · exact h1

theorem acceptance_eq (S : serverStatuses) : acceptance S = acceptedSet S := by
  unfold acceptance acceptedSet serverUp
  cases S <;> simp

theorem retryLoop_success {α : Type} (env : Env) (ctx : Context)
    (work : α → World → Bool × α × World) :
    ∀ (fuel : Nat) (tk : Ticker) (a : α) (w : World) (log : List RetryEvent)
      (a1 : α) (w1 : World) (log1 : List RetryEvent),
      retryLoop env ctx work fuel tk a w log = some (none, a1, w1, log1) →
      ∃ a0 w0, (work a0 w0).1 = true ∧ (work a0 w0).2.1 = a1 ∧ (work a0 w0).2.2 = w1 := by
  intro fuel
  induction fuel with
  | zero => intro tk a w log a1 w1 log1 h; simp [retryLoop] at h
  | succ f ih =>
    intro tk a w log a1 w1 log1 h
    rcases hs : select env ctx tk w with ⟨wk, tk1, w2⟩
    cases wk with
    | done =>
      rw [retryLoop_done env ctx work f tk a w log _ _ hs] at h
      simp at h
    | tick =>
      rw [retryLoop_tick env ctx work f tk a w log _ _ hs] at h
      cases hb : (work a w2).1 with
      | true =>
        rw [hb] at h
        simp only [if_true, Option.some.injEq, Prod.mk.injEq, true_and] at h
        exact ⟨a, w2, hb, h.1, h.2.1⟩
      | false =>
        rw [hb] at h; simp only [Bool.false_eq_true, if_false] at h
        exact ih _ _ _ _ _ _ _ h

theorem retry_success {α : Type} (env : Env) (fuel : Nat) (ctx : Context) (interval : Nat)
    (work : α → World → Bool × α × World) (a : α) (w : World)
    (a1 : α) (w1 : World) (log1 : List RetryEvent)
    (h : retry env fuel ctx interval work a w = some (none, a1, w1, log1)) :
    ∃ a0 w0, (work a0 w0).1 = true ∧ (work a0 w0).2.1 = a1 ∧ (work a0 w0).2.2 = w1 := by
  rw [retry_first] at h
  cases hb : (work a w).1 with
  | true =>
    rw [hb] at h
    simp only [if_true, Option.some.injEq, Prod.mk.injEq, true_and] at h
    exact ⟨a, w, hb, h.1, h.2.1⟩
  | false =>
    rw [hb] at h; simp only [Bool.false_eq_true, if_false] at h
    by_cases hi : interval = 0
    · simp [hi] at h
    · simp only [hi, if_false] at h
      exact retryLoop_success env ctx work _ _ _ _ _ _ _ _ h

/-- A status that the wait returns without error is in the acceptance set, the
default one for an empty or absent set. -/
theorem waitForServerStatus_accepted (env : Env) (fuel : Nat) (ctx : Context)
    (S : serverStatuses) (w : World) (st : serverStatus) (w1 : World)
    (h : waitForServerStatus env fuel ctx S w = some ((st, none), w1)) :
    st ∈ acceptedSet S := by
  unfold waitForServerStatus at h
  cases hr : retry env fuel ctx (10 * second) (statusWork env (acceptance S)) (.unknown, none) w with
  | none => rw [hr] at h; simp at h
  | some r =>
    rw [hr] at h
    obtain ⟨rerr, ⟨st1, e1⟩, w2, log⟩ := r
    cases rerr with
    | some rerr => simp at h
    | none =>
      simp only [Option.some.injEq, Prod.mk.injEq] at h
      obtain ⟨⟨rfl, rfl⟩, rfl⟩ := h
      obtain ⟨a0, w0, hb, ha, -⟩ := retry_success env fuel ctx _ _ _ _ _ _ _ hr
      rw [statusWork_eq] at hb ha
      simp only [] at hb ha
      rw [ha, has_iff_mem, acceptance_eq] at hb
      exact hb

/-- C9, as the code has it: when the probes give the outcomes of a script, the
wait probes through every status outside the acceptance set (for an empty or
absent set: every status but `unknown`) and returns the outcome of the first
probe whose status is in it, status and error, having made exactly the probes
up to that one; the error is nil unless the status is `unknown`; a scope that
is not done by then changes nothing; and whatever the probes give, a status
returned without error is in the acceptance set. -/
theorem waitForServerStatus_first_accepted (env : Env) (fuel : Nat) (S : serverStatuses)
    (w : World) (outcomes : Nat → serverStatus × Option GoError) (j : Nat)
    (hscript : ∀ w1, (vaultStatus env w1).1 = outcomes (probes w1))
    (hj : probes w ≤ j)
    (hbefore : ∀ i, probes w ≤ i → i < j → (outcomes i).1 ∉ acceptedSet S)
    (hat : (outcomes j).1 ∈ acceptedSet S)
    (hfuel : j - probes w ≤ fuel) :
    (∃ w1, waitForServerStatus env fuel Context.background S w = some (outcomes j, w1) ∧
      probes w1 = j + 1 ∧
      ((outcomes j).1 ≠ .unknown → (outcomes j).2 = none) ∧
      ∀ ctx : Context, ctx.isDone w1.now = false →
        waitForServerStatus env fuel ctx S w = some (outcomes j, w1)) ∧
    ∀ (ctx : Context) (n : Nat) (st : serverStatus) (w1 : World),
      waitForServerStatus env n ctx S w = some ((st, none), w1) → st ∈ acceptedSet S := by
  refine ⟨?_, fun ctx n st w1 h => waitForServerStatus_accepted env n ctx S w st w1 h⟩
  have hbefore1 : ∀ i, probes w ≤ i → i < j →
      serverStatuses.Has (acceptance S) (outcomes i).1 = false := by
    intro i h1 h2
    have := hbefore i h1 h2
    rw [← acceptance_eq, ← has_iff_mem] at this
    simpa using this
  have hat1 : serverStatuses.Has (acceptance S) (outcomes j).1 = true := by
    rw [has_iff_mem, acceptance_eq]; exact hat
  obtain ⟨a1, w1, log, tN, hrun, hcnt, hq, -, -, -, hle, hctx⟩ :=
    retry_counts env (statusWork env (acceptance S)) (fun _ w => probes w) (probes w) (j + 1)
      (fun a w => a = outcomes (probes w - 1))
      (fun a w => by simp only [statusWork_eq, probes_vaultStatus])
      (fun _ _ _ => rfl)
      (fun a w1 hlo hlt => by
        simp only [statusWork_eq, hscript]
        exact hbefore1 _ hlo (by simp only [] at hlt; omega))
      (fun a w1 h => by
        simp only [statusWork_eq, hscript]
        have : probes w1 = j := by simp only [] at h; omega
        rw [this]; exact hat1)
      (fun a w1 => by simp only [statusWork_eq]; exact (vaultStatus_effects env w1).2.1)
      (fun a w1 => by simp only [statusWork_eq, probes_vaultStatus, hscript]; simp)
      (j - probes w) fuel (10 * second) (.unknown, none) w (le_refl _)
      (by simp only []; omega) hfuel (by decide)
  have hcnt : probes w1 = j + 1 := hcnt
  have ha : a1 = outcomes j := by
    have hq : a1 = outcomes (probes w1 - 1) := hq
    rw [hq, hcnt]; simp
  subst ha
  refine ⟨w1, ?_, hcnt, ?_, ?_⟩
  · unfold waitForServerStatus
    rw [hrun]
  · have h := (vaultStatus_effects env ⟨0, [], List.replicate j .readEnvironment⟩).2.2.2
    rw [hscript] at h
    simpa [probes] using h
  · intro ctx hd
    unfold waitForServerStatus
    rw [hctx ctx (isDone_mono ctx _ _ hle hd)]

/-! ## Invariants of `retry` -/

theorem retryLoop_inv {α : Type} (env : Env) (ctx : Context)
    (work : α → World → Bool × α × World) (P : α → World → Prop)
    (hwork : ∀ a w, P a w → P (work a w).2.1 (work a w).2.2)
    (hnow : ∀ a w t, P a w → P a { w with now := t }) :
    ∀ (fuel : Nat) (tk : Ticker) (a : α) (w : World) (log : List RetryEvent)
      (r : Option GoError × α × World × List RetryEvent),
      P a w → retryLoop env ctx work fuel tk a w log = some r → P r.2.1 r.2.2.1 := by
  intro fuel
  induction fuel with
  | zero => intro tk a w log r _ h; simp [retryLoop] at h
  | succ f ih =>
    intro tk a w log r hp h
    rcases hs : select env ctx tk w with ⟨wk, tk1, w1⟩
    have hw1 : P a w1 := by
      have := (select_world env ctx tk w).1
      rw [hs] at this
      simp only [] at this
      rw [this]; exact hnow a w _ hp
    cases wk with
    | done =>
      rw [retryLoop_done env ctx work f tk a w log _ _ hs] at h
      cases h; exact hw1
    | tick =>
      rw [retryLoop_tick env ctx work f tk a w log _ _ hs] at h
      cases hb : (work a w1).1 with
      | true =>
        rw [hb] at h; simp only [if_true] at h
        cases h; exact hwork a w1 hw1
      | false =>
        rw [hb] at h; simp only [Bool.false_eq_true, if_false] at h
        exact ih _ _ _ _ _ (hwork a w1 hw1) h

theorem retry_inv {α : Type} (env : Env) (fuel : Nat) (ctx : Context) (interval : Nat)
    (work : α → World → Bool × α × World) (P : α → World → Prop)
    (hwork : ∀ a w, P a w → P (work a w).2.1 (work a w).2.2)
    (hnow : ∀ a w t, P a w → P a { w with now := t })
    (a : α) (w : World) (r : Option GoError × α × World × List RetryEvent)
    (hp : P a w) (h : retry env fuel ctx interval work a w = some r) : P r.2.1 r.2.2.1 := by
  rw [retry_first] at h
  cases hb : (work a w).1 with
  | true =>
    rw [hb] at h; simp only [if_true] at h
    cases h; exact hwork a w hp
  | false =>
    rw [hb] at h; simp only [Bool.false_eq_true, if_false] at h
    by_cases hi : interval = 0
    · simp [hi] at h
    · simp only [hi, if_false] at h
      exact retryLoop_inv env ctx work P hwork hnow _ _ _ _ _ _ (hwork a w hp) h

/-- The wait issues nothing but probes, leaves the files alone, and returns an
error only together with `unknown`. -/
theorem waitForServerStatus_effects (env : Env) (fuel : Nat) (ctx : Context)
    (S : serverStatuses) (w : World) (st : serverStatus) (e : Option GoError) (w1 : World)
    (h : waitForServerStatus env fuel ctx S w = some ((st, e), w1)) :
    w1.files = w.files ∧
    (∃ added, w1.calls = w.calls ++ added ∧ ∀ c ∈ added, Call.isProbe c) ∧
    (st ≠ .unknown → e = none) := by
  unfold waitForServerStatus at h
  cases hr : retry env fuel ctx (10 * second) (statusWork env (acceptance S)) (.unknown, none) w with
  | none => rw [hr] at h; simp at h
  | some r =>
    have hinv := retry_inv env fuel ctx (10 * second) (statusWork env (acceptance S))
      (fun a w1 => w1.files = w.files ∧
        (∃ added, w1.calls = w.calls ++ added ∧ ∀ c ∈ added, Call.isProbe c) ∧
        (a.1 ≠ .unknown → a.2 = none))
      (fun a w2 hp => by
        simp only [statusWork_eq]
        obtain ⟨hf, -, ⟨added, hc, hadd⟩, herr⟩ := vaultStatus_effects env w2
        obtain ⟨hf0, ⟨added0, hc0, hadd0⟩, -⟩ := hp
        refine ⟨hf.trans hf0, ⟨added0 ++ .readEnvironment :: added, ?_, ?_⟩, herr⟩
        · rw [hc, hc0]; simp
        · intro c hc1
          simp only [List.mem_append, List.mem_cons] at hc1
          rcases hc1 with h1 | h1 | h1
          · exact hadd0 c h1
          · exact Or.inl h1
          · exact Or.inr (hadd c h1))
      (fun a w2 t hp => hp)
      (.unknown, none) w r ⟨rfl, ⟨[], by simp, by simp⟩, by simp⟩ hr
    rw [hr] at h
    obtain ⟨rerr, ⟨st1, e1⟩, w2, log⟩ := r
    simp only [] at hinv
    cases rerr with
    | some rerr =>
      simp only [Option.some.injEq, Prod.mk.injEq] at h
      obtain ⟨⟨rfl, rfl⟩, rfl⟩ := h
      exact ⟨hinv.1, hinv.2.1, by simp⟩
    | none =>
      simp only [Option.some.injEq, Prod.mk.injEq] at h
      obtain ⟨⟨rfl, rfl⟩, rfl⟩ := h
      exact hinv

/-- C8: when the status observed by the wait is sealed, standby or active and
`Idempotent` is set, `vaultInit` returns nil in the world the wait left: only
probes were issued (no initialize call, no directory made, no file written)
and the files are as they were. -/
theorem vaultInit_idempotent (env : Env) (fuel : Nat) (ctx : Context) (params : vaultInitParams)
    (ss : secretsStash) (w : World) (st : serverStatus) (e : Option GoError) (w1 : World)
    (hid : params.Idempotent = true)
    (hwait : waitForServerStatus env fuel (ctx.withTimeout w.now params.ServerUpWaitTimeout)
      [] w = some ((st, e), w1))
    (hst : st = .sealed ∨ st = .standby ∨ st = .active) :
    vaultInit env fuel ctx params ss w = some (none, w1) ∧
    w1.files = w.files ∧
    ∃ added, w1.calls = w.calls ++ added ∧ ∀ c ∈ added, Call.isProbe c := by
  obtain ⟨hf, hc, herr⟩ := waitForServerStatus_effects env fuel _ _ w st e w1 hwait
  have he : e = none := herr (by rcases hst with h | h | h <;> simp [h])
  subst he
  refine ⟨?_, hf, hc⟩
  unfold vaultInit
  simp only [hwait]
  rcases hst with h | h | h <;> simp [h, hid]

/-! ## The round trip through `encoding/json` -/

theorem utf8Size_cons (b0 : UInt8) (rest : Bytes) :
    utf8Size (b0 :: rest) =
      if b0.toNat < 0x80 then 1
      else if b0.toNat < 0xC2 then 0
      else if b0.toNat < 0xE0 then
        if byteIn rest 0 0x80 0xBF then 2 else 0
      else if b0.toNat < 0xF0 then
        if byteIn rest 0 (if b0.toNat = 0xE0 then 0xA0 else 0x80)
              (if b0.toNat = 0xED then 0x9F else 0xBF) &&
            byteIn rest 1 0x80 0xBF then 3
        else 0
      else if b0.toNat < 0xF5 then
        if byteIn rest 0 (if b0.toNat = 0xF0 then 0x90 else 0x80)
              (if b0.toNat = 0xF4 then 0x8F else 0xBF) &&
            byteIn rest 1 0x80 0xBF && byteIn rest 2 0x80 0xBF then 4
        else 0
      else 0 := rfl

theorem byteIn_lt (s : Bytes) (i lo hi : Nat) (h : byteIn s i lo hi = true) : i < s.length := by
  unfold byteIn at h
  cases hs : s[i]? with
  | none => rw [hs] at h; simp at h
  | some b =>
    by_contra hlt
    rw [List.getElem?_eq_none (by omega)] at hs
    simp at hs

theorem byteIn_take (s more : Bytes) (i n lo hi : Nat) (hi1 : i < n) (hn : n ≤ s.length) :
    byteIn (s.take n ++ more) i lo hi = byteIn s i lo hi := by
  unfold byteIn
  have h1 : i < (s.take n).length := by simp; omega
  rw [List.getElem?_append_left h1, List.getElem?_take_of_lt hi1]

theorem unquoteLoop_cons (fuel : Nat) (b : UInt8) (rest : Bytes) :
    unquoteLoop (fuel + 1) (b :: rest) =
      if b.toNat = 0x22 then some ([], rest)
      else if b.toNat = 0x5C then
        match rest with
        | [] => none
        | c :: rest1 =>
          if c.toNat = 0x75 then
            match hex4 rest1 with
            | none => none
            | some (cp, rest2) =>
              andThen (unicodeEscape cp rest2).1 (unquoteLoop fuel (unicodeEscape cp rest2).2)
          else
            match simpleEscape c with
            | some x => andThen [x] (unquoteLoop fuel rest1)
            | none => none
      else if b.toNat < 0x20 then none
      else if b.toNat < 0x80 then andThen [b] (unquoteLoop fuel rest)
      else
        match utf8Size (b :: rest) with
        | 0 => andThen [0xEF, 0xBF, 0xBD] (unquoteLoop fuel rest)
        | n + 1 => andThen (b :: rest.take n) (unquoteLoop fuel (rest.drop n)) := rfl

theorem byte_eq (b c : UInt8) (h : b.toNat = c.toNat) : b = c := UInt8.ext_iff.mpr h

theorem ofNat_toNat (b : UInt8) : UInt8.ofNat b.toNat = b := by
  apply byte_eq
  show b.toNat % 256 = b.toNat
  exact Nat.mod_eq_of_lt (UInt8.toNat_lt_size b)

theorem hexVal_hexDigit (n : Nat) (h : n < 16) : hexVal (hexDigit n) = some n := by
  interval_cases n <;> rfl

theorem hex4_escapeByte (b : UInt8) (more : Bytes) :
    hex4 (0x30 :: 0x30 :: hexDigit (b.toNat / 16) :: hexDigit (b.toNat % 16) :: more) =
      some (b.toNat, more) := by
  have hb := UInt8.toNat_lt_size b
  have h1 : b.toNat / 16 < 16 := by
    have : b.toNat < 256 := hb
    omega
  have h2 : b.toNat % 16 < 16 := Nat.mod_lt _ (by decide)
  have h0 : hexVal 0x30 = some 0 := rfl
  unfold hex4
  simp only [h0, hexVal_hexDigit _ h1, hexVal_hexDigit _ h2, Option.some.injEq, Prod.mk.injEq,
    and_true]
  omega

theorem andThen_some (chunk s rest : Bytes) :
    andThen chunk (some (s, rest)) = some (chunk ++ s, rest) := rfl

theorem unquoteLoop_backslash (fuel : Nat) (c : UInt8) (rest1 : Bytes) :
    unquoteLoop (fuel + 1) (0x5C :: c :: rest1) =
      if c.toNat = 0x75 then
        match hex4 rest1 with
        | none => none
        | some (cp, rest2) =>
          andThen (unicodeEscape cp rest2).1 (unquoteLoop fuel (unicodeEscape cp rest2).2)
      else
        match simpleEscape c with
        | some x => andThen [x] (unquoteLoop fuel rest1)
        | none => none := rfl

/-- Reading back what `quoteByte` wrote gives the byte. -/
theorem unquoteLoop_quoteByte (short : Bool) (b : UInt8) (more : Bytes) (fuel : Nat)
    (hb : b.toNat < 0x80) :
    unquoteLoop (fuel + 1) (quoteByte short b ++ more) = andThen [b] (unquoteLoop fuel more) := by
  unfold quoteByte
  split_ifs with h1 h2 h3 h4 h5 h6 h7
  · have hs : simpleEscape b = some b := by
      unfold simpleEscape
      rcases h1 with h | h <;> simp [h]
    have hu : ¬ b.toNat = 0x75 := by rcases h1 with h | h <;> omega
    simp only [List.cons_append, List.nil_append, unquoteLoop_backslash, hu, if_false, hs]
  · have : b = 0x0A := byte_eq _ _ h2
    subst this; rfl
  · have : b = 0x0D := byte_eq _ _ h3
    subst this; rfl
  · have : b = 0x09 := byte_eq _ _ h4
    subst this; rfl
  · have : b = 0x08 := byte_eq _ _ h5.2
    subst this; rfl
  · have : b = 0x0C := byte_eq _ _ h6.2
    subst this; rfl
  · have hx := hex4_escapeByte b more
    have he : encodeRune b.toNat = [b] := by
      unfold encodeRune
      simp [hb, ofNat_toNat]
    have hs : unicodeEscape b.toNat more = (encodeRune b.toNat, more) := by
      unfold unicodeEscape
      have : ¬ (0xD800 ≤ b.toNat ∧ b.toNat < 0xE000) := by omega
      simp only [this, if_false]
    unfold escapeByte
    have h75 : (0x75 : UInt8).toNat = 0x75 := rfl
    simp only [List.cons_append, List.nil_append, unquoteLoop_backslash, h75, if_true, hx, hs, he]
  · simp only [not_or] at h1 h7
    have h20 : ¬ b.toNat < 0x20 := h7.1
    simp only [List.cons_append, List.nil_append, unquoteLoop_cons, h1.1, h1.2, h20, hb,
      if_false, if_true]

theorem quoteByte_length (short : Bool) (b : UInt8) : 1 ≤ (quoteByte short b).length := by
  unfold quoteByte escapeByte
  split_ifs <;> simp

/-- The size of a well-formed sequence depends on its own bytes alone, which
are all there. -/
theorem utf8Size_take (b : UInt8) (rest more : Bytes) (n : Nat)
    (h : utf8Size (b :: rest) = n + 1) :
    utf8Size (b :: (rest.take n ++ more)) = n + 1 ∧ n ≤ rest.length := by
  rw [utf8Size_cons] at h
  rw [utf8Size_cons]
  by_cases h1 : b.toNat < 0x80
  · simp only [h1, if_true] at h ⊢
    exact ⟨h, by omega⟩
  by_cases h2 : b.toNat < 0xC2
  · simp only [h1, h2, if_true, if_false] at h
    omega
  by_cases h3 : b.toNat < 0xE0
  · simp only [h1, h2, h3, if_true, if_false] at h ⊢
    by_cases hc : byteIn rest 0 0x80 0xBF = true
    · simp only [hc, if_true] at h
      have hn : n = 1 := by omega
      subst hn
      have hl := byteIn_lt _ _ _ _ hc
      rw [byteIn_take rest more 0 1 _ _ (by omega) (by omega), hc]
      exact ⟨rfl, by omega⟩
    · simp [hc] at h
  by_cases h4 : b.toNat < 0xF0
  · simp only [h1, h2, h3, h4, if_true, if_false] at h ⊢
    by_cases hc : (byteIn rest 0 (if b.toNat = 0xE0 then 0xA0 else 0x80)
        (if b.toNat = 0xED then 0x9F else 0xBF) && byteIn rest 1 0x80 0xBF) = true
    · simp only [hc, if_true] at h
      have hn : n = 2 := by omega
      subst hn
      have hc2 := hc
      simp only [Bool.and_eq_true] at hc2
      have hl := byteIn_lt _ _ _ _ hc2.2
      rw [byteIn_take rest more 0 2 _ _ (by omega) (by omega),
        byteIn_take rest more 1 2 _ _ (by omega) (by omega), hc]
      exact ⟨rfl, by omega⟩
    · simp [hc] at h
  by_cases h5 : b.toNat < 0xF5
  · simp only [h1, h2, h3, h4, h5, if_true, if_false] at h ⊢
    by_cases hc : (byteIn rest 0 (if b.toNat = 0xF0 then 0x90 else 0x80)
        (if b.toNat = 0xF4 then 0x8F else 0xBF) && byteIn rest 1 0x80 0xBF &&
        byteIn rest 2 0x80 0xBF) = true
    · simp only [hc, if_true] at h
      have hn : n = 3 := by omega
      subst hn
      have hc2 := hc
      simp only [Bool.and_eq_true] at hc2
      have hl := byteIn_lt _ _ _ _ hc2.2
      rw [byteIn_take rest more 0 3 _ _ (by omega) (by omega),
        byteIn_take rest more 1 3 _ _ (by omega) (by omega),
        byteIn_take rest more 2 3 _ _ (by omega) (by omega), hc]
      exact ⟨rfl, by omega⟩
    · simp [hc] at h
  · simp only [h1, h2, h3, h4, h5, if_false] at h
    omega

theorem unquoteLoop_high (fuel : Nat) (b : UInt8) (rest : Bytes) (hb : ¬ b.toNat < 0x80) :
    unquoteLoop (fuel + 1) (b :: rest) =
      match utf8Size (b :: rest) with
      | 0 => andThen [0xEF, 0xBF, 0xBD] (unquoteLoop fuel rest)
      | n + 1 => andThen (b :: rest.take n) (unquoteLoop fuel (rest.drop n)) := by
  have h1 : ¬ b.toNat = 0x22 := by omega
  have h2 : ¬ b.toNat = 0x5C := by omega
  have h3 : ¬ b.toNat < 0x20 := by omega
  rw [unquoteLoop_cons]
  simp only [h1, h2, h3, hb, if_false]

theorem unquoteLoop_quote (fuel : Nat) (rest : Bytes) :
    unquoteLoop (fuel + 1) (0x22 :: rest) = some ([], rest) := rfl

theorem unquoteLoop_lineSeparator (fuel : Nat) (more : Bytes) :
    unquoteLoop (fuel + 1) (asciiBytes "\\u2028" ++ more) =
      andThen [0xE2, 0x80, 0xA8] (unquoteLoop fuel more) := rfl

theorem unquoteLoop_paragraphSeparator (fuel : Nat) (more : Bytes) :
    unquoteLoop (fuel + 1) (asciiBytes "\\u2029" ++ more) =
      andThen [0xE2, 0x80, 0xA9] (unquoteLoop fuel more) := rfl

/-- Reading back the inside of a literal written for well-formed UTF-8 gives
the string. -/
theorem unquoteLoop_quoteLoop (short : Bool) :
    ∀ (fuel : Nat) (s rest : Bytes) (fuel2 : Nat), validUTF8 fuel s = true →
      (quoteLoop short fuel s).length < fuel2 →
      unquoteLoop fuel2 (quoteLoop short fuel s ++ 0x22 :: rest) = some (s, rest) := by
  intro fuel
  induction fuel with
  | zero =>
    intro s rest fuel2 hv hlen
    cases s with
    | nil =>
      obtain ⟨f2, rfl⟩ : ∃ f2, fuel2 = f2 + 1 := ⟨fuel2 - 1, by omega⟩
      rfl
    | cons b t => simp [validUTF8] at hv
  | succ fuel ih =>
    intro s rest fuel2 hv hlen
    cases s with
    | nil =>
      obtain ⟨f2, rfl⟩ : ∃ f2, fuel2 = f2 + 1 := ⟨fuel2 - 1, by omega⟩
      rfl
    | cons b t =>
      obtain ⟨f2, rfl⟩ : ∃ f2, fuel2 = f2 + 1 := ⟨fuel2 - 1, by omega⟩
      by_cases hb : b.toNat < 0x80
      · have hsize : utf8Size (b :: t) = 1 := by simp [utf8Size_cons, hb]
        have hvt : validUTF8 fuel t = true := by
          rw [validUTF8, hsize] at hv
          simpa using hv
        have hq : quoteLoop short (fuel + 1) (b :: t) =
            quoteByte short b ++ quoteLoop short fuel t := by
          rw [quoteLoop]; simp [hb]
        rw [hq] at hlen ⊢
        have h1 := quoteByte_length short b
        rw [List.length_append] at hlen
        rw [List.append_assoc, unquoteLoop_quoteByte short b _ f2 hb,
          ih t rest f2 hvt (by omega)]
        rfl
      · rw [validUTF8] at hv
        rcases hsize : utf8Size (b :: t) with _ | n
        · rw [hsize] at hv; simp at hv
        · rw [hsize] at hv
          have hvt : validUTF8 fuel (t.drop n) = true := by simpa using hv
          obtain ⟨hsz, hn⟩ := utf8Size_take b t (quoteLoop short fuel (t.drop n) ++ 0x22 :: rest) n hsize
          have hs : b :: t = (b :: t.take n) ++ t.drop n := by simp
          have hq : quoteLoop short (fuel + 1) (b :: t) =
              (if b :: t.take n = [0xE2, 0x80, 0xA8] then asciiBytes "\\u2028"
               else if b :: t.take n = [0xE2, 0x80, 0xA9] then asciiBytes "\\u2029"
               else b :: t.take n) ++ quoteLoop short fuel (t.drop n) := by
            rw [quoteLoop]; simp only [hb, if_false, hsize]
          rw [hq] at hlen ⊢
          rw [List.length_append] at hlen
          by_cases hls : b :: t.take n = [0xE2, 0x80, 0xA8]
          · rw [if_pos hls] at hlen ⊢
            have h6 : (asciiBytes "\\u2028").length = 6 := rfl
            have hcat : ([0xE2, 0x80, 0xA8] : Bytes) ++ t.drop n = b :: t := by
              rw [← hls]; simp
            rw [List.append_assoc, unquoteLoop_lineSeparator,
              ih (t.drop n) rest f2 hvt (by omega), andThen_some, hcat]
          · by_cases hps : b :: t.take n = [0xE2, 0x80, 0xA9]
            · rw [if_neg hls, if_pos hps] at hlen ⊢
              have h6 : (asciiBytes "\\u2029").length = 6 := rfl
              have hcat : ([0xE2, 0x80, 0xA9] : Bytes) ++ t.drop n = b :: t := by
                rw [← hps]; simp
              rw [List.append_assoc, unquoteLoop_paragraphSeparator,
                ih (t.drop n) rest f2 hvt (by omega), andThen_some, hcat]
            · rw [if_neg hls, if_neg hps] at hlen ⊢
              have hlt : (t.take n).length = n := by simp [hn]
              rw [List.append_assoc, List.cons_append, unquoteLoop_high f2 b _ hb, hsz]
              simp only []
              have hl : 1 ≤ (b :: t.take n).length := by simp
              rw [List.take_left' hlt, List.drop_left' hlt,
                ih (t.drop n) rest f2 hvt (by omega), andThen_some]
              simp

/-- Reading back the literal written for well-formed UTF-8 gives the string. -/
theorem unquote_quote (short : Bool) (s rest : Bytes) (hv : validText s = true) :
    unquote (quoteLoop short s.length s ++ 0x22 :: rest) = some (s, rest) := by
  unfold unquote
  exact unquoteLoop_quoteLoop short s.length s rest _ hv (by simp)

theorem expect_append (pre rest : Bytes) : expect pre (pre ++ rest) = some rest := by
  induction pre with
  | nil => rfl
  | cons c cs ih => simp [expect, ih]

theorem quote_eq (short : Bool) (s more : Bytes) :
    quote short s ++ more = 0x22 :: (quoteLoop short s.length s ++ 0x22 :: more) := by
  simp [quote]

theorem quoteList_head (short : Bool) (k : Bytes) (ks : List Bytes) :
    ∃ tail, quoteList short (k :: ks) = 0x22 :: tail := by
  cases ks with
  | nil => exact ⟨_, by rw [quoteList, quote_eq]⟩
  | cons k1 rest => exact ⟨_, by rw [quoteList, quote_eq]⟩

theorem quoteList_length (short : Bool) (ks : List Bytes) :
    ks.length ≤ (quoteList short ks).length := by
  induction ks with
  | nil => simp
  | cons k rest ih =>
    cases rest with
    | nil => rw [quoteList, quote_eq]; simp
    | cons k1 rest1 =>
      rw [quoteList, quote_eq]
      simp only [List.length_cons, List.length_append] at ih ⊢
      omega

theorem unquoteList_cons (fuel : Nat) (b : UInt8) (rest : Bytes) :
    unquoteList (fuel + 1) (b :: rest) =
      if b.toNat = 0x22 then
        match unquote rest with
        | some (s, c :: rest1) =>
          if c.toNat = 0x2C then (unquoteList fuel rest1).map (fun p => (s :: p.1, p.2))
          else if c.toNat = 0x5D then some ([s], rest1)
          else none
        | _ => none
      else none := rfl

/-- Reading back the array written for strings of well-formed UTF-8 gives the
strings. -/
theorem unquoteList_quoteList (short : Bool) (ks : List Bytes) :
    ks ≠ [] → (∀ k ∈ ks, validText k = true) → ∀ (rest : Bytes) (fuel : Nat),
      ks.length ≤ fuel → unquoteList fuel (quoteList short ks ++ rest) = some (ks, rest) := by
  induction ks with
  | nil => intro h; exact absurd rfl h
  | cons k ks ih =>
    intro _ hv rest fuel hfuel
    obtain ⟨f, rfl⟩ : ∃ f, fuel = f + 1 := ⟨fuel - 1, by simp at hfuel; omega⟩
    have hk : validText k = true := hv k (by simp)
    have h22 : (0x22 : UInt8).toNat = 0x22 := rfl
    have h2c : (0x2C : UInt8).toNat = 0x2C := rfl
    have h5d : (0x5D : UInt8).toNat = 0x5D := rfl
    cases ks with
    | nil =>
      rw [quoteList, List.append_assoc, quote_eq, unquoteList_cons]
      simp only [h22, if_true, List.singleton_append, unquote_quote short k _ hk, h5d]
      simp
    | cons k1 rest1 =>
      have hrec := ih (by simp) (fun x hx => hv x (by simp [hx])) rest f
        (by simp only [List.length_cons] at hfuel ⊢; omega)
      rw [quoteList, List.append_assoc, quote_eq, unquoteList_cons]
      simp only [h22, if_true, List.cons_append, unquote_quote short k _ hk, h2c, hrec]
      simp

theorem unquoteKeys_quoteList (short : Bool) (ks : List Bytes) (rest : Bytes)
    (hne : ks ≠ []) (hv : ∀ k ∈ ks, validText k = true) :
    unquoteKeys (0x5B :: quoteList short ks ++ rest) = some (ks, rest) := by
  cases ks with
  | nil => exact absurd rfl hne
  | cons k ks1 =>
    obtain ⟨tail, ht⟩ := quoteList_head short k ks1
    have h1 : expect (asciiBytes "null") (0x5B :: quoteList short (k :: ks1) ++ rest) = none := rfl
    have h2 : expect (asciiBytes "[]") (0x5B :: quoteList short (k :: ks1) ++ rest) = none := by
      rw [ht]; rfl
    have h3 : expect (asciiBytes "[") (0x5B :: quoteList short (k :: ks1) ++ rest) =
        some (quoteList short (k :: ks1) ++ rest) := rfl
    unfold unquoteKeys
    rw [h1, h2, h3]
    simp only []
    apply unquoteList_quoteList short (k :: ks1) hne hv
    have := quoteList_length short (k :: ks1)
    simp only [List.length_append]
    omega

/-- The round trip through `encoding/json`: a bundle that has unseal keys and
whose strings are well-formed UTF-8 is read back from what was written. -/
theorem jsonUnmarshal_jsonMarshal (short : Bool) (sec : secrets)
    (hne : sec.UnsealKeys ≠ []) (hv : ∀ k ∈ sec.UnsealKeys, validText k = true)
    (ht : validText sec.RootToken = true) :
    jsonUnmarshal (jsonMarshal short sec) = some sec := by
  have hm : jsonMarshal short sec =
      asciiBytes "\x7b\"unseal_keys\":" ++ ((0x5B :: quoteList short sec.UnsealKeys) ++
        (asciiBytes ",\"root_token\":\"" ++
          (quoteLoop short sec.RootToken.length sec.RootToken ++ 0x22 :: asciiBytes "\x7d"))) := by
    have hq : asciiBytes ",\"root_token\":\"" = asciiBytes ",\"root_token\":" ++ [0x22] := rfl
    unfold jsonMarshal
    rw [if_neg hne, hq]
    simp [quote]
  unfold jsonUnmarshal
  rw [hm, expect_append]
  simp only []
  rw [unquoteKeys_quoteList short _ _ hne hv]
  simp only []
  rw [expect_append]
  simp only []
  rw [unquote_quote short _ _ ht]
  simp

/-- C6, as the code has it: through `encoding/json`, a bundle with unseal keys
and a root token, all of them well-formed UTF-8, that is saved and then loaded
from the same path while the file-system steps succeed and the file is left
alone comes back unchanged and without error. -/
theorem save_load_roundtrip (env : Env) (short : Bool) (ss : secretsStash) (sec : secrets)
    (w w2 : World)
    (hjson : env.encodesJSON short)
    (hkeys : sec.UnsealKeys ≠ []) (htoken : sec.RootToken ≠ [])
    (hvalid : ∀ k ∈ sec.UnsealKeys, validText k = true)
    (hvalidToken : validText sec.RootToken = true)
    (hmkdir : env.fsFault w (.mkdirAll (env.dir ss.Path) 0o755) = none)
    (hwrite : env.fsFault (w.issue env (.mkdirAll (env.dir ss.Path) 0o755))
      (.writeFile ss.Path (jsonMarshal short sec) 0o600) = none)
    (huntouched : w2.lookup ss.Path = (secretsStash.Save env ss sec w).2.lookup ss.Path)
    (hread : env.fsFault w2 (.readFile ss.Path) = none) :
    (secretsStash.Save env ss sec w).1 = none ∧
    (secretsStash.Load env ss w2).1 = (some sec, none) :=
  save_load_codec env ss sec w w2 (jsonMarshal short sec) hkeys htoken (hjson.1 sec)
    (hjson.2 _ _ (jsonUnmarshal_jsonMarshal short sec hkeys hvalid hvalidToken))
    hmkdir hwrite huntouched hread

theorem calm_encodesJSON : calm.encodesJSON false := by
  refine ⟨fun _ => rfl, fun b sec h => ?_⟩
  show (match jsonUnmarshal b with
    | some sec => Except.ok sec
    | none => Except.error (GoError.msg "json: cannot unmarshal the stash")) = Except.ok sec
  rw [h]

/-! ## Examples -/

/-- C1 at three stored shares of which the second unseals the server: two
submissions, the third share is never submitted. -/
theorem unsealShares_stops_at_first_unsealed_witness :
    unsealShares needsSecond [asciiBytes "k1", asciiBytes "k2", asciiBytes "k3"] fresh =
      (none, submitted needsSecond [asciiBytes "k1", asciiBytes "k2"] fresh) ∧
    (submitted needsSecond [asciiBytes "k1", asciiBytes "k2"] fresh).calls =
      [.unseal (asciiBytes "k1"), .unseal (asciiBytes "k2")] :=
  unsealShares_stops_at_first_unsealed needsSecond [asciiBytes "k1"] (asciiBytes "k2")
    [asciiBytes "k3"] fresh
    (fun i h => by
      have hi : i = 0 := by simpa using h
      subst hi
      rfl)
    rfl

/-- C2 at two stored shares of which the first submission errors: the error
comes back and the second share is never submitted. -/
theorem unsealShares_aborts_on_error_witness :
    unsealShares refusing [asciiBytes "k1", asciiBytes "k2"] fresh =
      (some (.msg "connection refused"), submitted refusing [asciiBytes "k1"] fresh) ∧
    (submitted refusing [asciiBytes "k1"] fresh).calls = [.unseal (asciiBytes "k1")] :=
  unsealShares_aborts_on_error refusing [] (asciiBytes "k1") [asciiBytes "k2"] fresh
    (.msg "connection refused")
    (fun i h => absurd h (Nat.not_lt_zero i))
    rfl

/-- C3 refuted: in a scope cancelled at instant 0, `retry` called at instant 5
with a predicate that returns true invokes it and returns nil. -/
theorem retry_succeeds_in_done_scope :
    (⟨some 0, .canceled⟩ : Context).isDone (⟨5, [], []⟩ : World).now = true ∧
    retry calm 1 ⟨some 0, .canceled⟩ second (fun (a : Unit) w => (true, a, w)) () ⟨5, [], []⟩ =
      some (none, (), ⟨5, [], []⟩, [.invoke 5 true]) := by
  decide

/-- The amended C3 at a predicate that returns false: one invocation, then the
scope's error. -/
theorem retry_in_done_scope_witness :
    retry calm 1 ⟨some 0, .canceled⟩ second (fun (a : Unit) w => (false, a, w)) () ⟨5, [], []⟩ =
      some (some .canceled, (), ⟨5, [], []⟩, [.invoke 5 false, .done]) :=
  retry_in_done_scope calm 1 second ⟨some 0, .canceled⟩ (fun (a : Unit) w => (false, a, w)) ()
    ⟨5, [], []⟩ (by decide) (by decide) (by decide) (le_refl _)

/-- C4 on the code: with a stash that holds no unseal key, `vaultUnseal` calls
`Load` seven times, on each tick of the three seconds until the twenty seconds
are over, and fails with the deadline error joined to the validation error. -/
theorem vaultUnseal_retries_invalid_stash :
    vaultUnseal calm 10 Context.background ⟨300 * second, true⟩ ⟨"/v/stash"⟩ emptyKeysStash =
      some (some (.msg "context deadline exceeded: secrets: no unseal keys found"),
        ⟨20003000000, emptyKeysStash.files,
          [.readEnvironment, .newClient, .health, .readFile "/v/stash", .readFile "/v/stash",
            .readFile "/v/stash", .readFile "/v/stash", .readFile "/v/stash",
            .readFile "/v/stash", .readFile "/v/stash"]⟩) := by
  decide

/-- C5 refuted: a stash that deserialises to a bundle without unseal keys
makes `Load` return an error that is not of the wrapped form. -/
theorem load_validation_error_not_wrapped :
    calm.unmarshal (asciiBytes "\x7b\"unseal_keys\":[],\"root_token\":\"t\"\x7d") = .ok ⟨[], asciiBytes "t"⟩ ∧
    (secretsStash.Load calm ⟨"/v/stash"⟩ emptyKeysStash).1 =
      (some ⟨[], asciiBytes "t"⟩, some (.msg "secrets: no unseal keys found")) ∧
    ¬ wrappedLoadError (secretsStash.Load calm ⟨"/v/stash"⟩ emptyKeysStash).1.2 := by
  have h : (secretsStash.Load calm ⟨"/v/stash"⟩ emptyKeysStash).1 =
      (some ⟨[], asciiBytes "t"⟩, some (.msg "secrets: no unseal keys found")) := by decide
  refine ⟨rfl, h, ?_⟩
  rw [h]
  rintro ⟨cause, hc⟩
  simp only [Option.some.injEq, GoError.msg.injEq] at hc
  have := congrArg String.data hc
  simp at this

/-- The amended C5 at a stash with an unseal key and an empty root token. -/
theorem load_error_forms_witness :
    (secretsStash.Load calm ⟨"/v/stash"⟩ emptyTokenStash).1 =
      (some ⟨[asciiBytes "k1"], []⟩, some (.msg "secrets: no root token found")) :=
  ((load_error_forms calm ⟨"/v/stash"⟩ emptyTokenStash
    (asciiBytes "\x7b\"unseal_keys\":[\"k1\"],\"root_token\":\"\"\x7d") rfl).2 ⟨[asciiBytes "k1"], []⟩ rfl).2.1
    (by decide) rfl

/-- C6 refuted: a bundle whose one unseal key is the byte `0xFF`, which is no
valid UTF-8, is saved without error and loaded without error as another
bundle, the key being the replacement character. -/
theorem save_load_coerces_invalid_utf8 :
    (⟨[[0xFF]], asciiBytes "t"⟩ : secrets).UnsealKeys ≠ [] ∧
    (⟨[[0xFF]], asciiBytes "t"⟩ : secrets).RootToken ≠ [] ∧
    (secretsStash.Save calm ⟨"/v/stash"⟩ ⟨[[0xFF]], asciiBytes "t"⟩ fresh).1 = none ∧
    (secretsStash.Load calm ⟨"/v/stash"⟩
      (secretsStash.Save calm ⟨"/v/stash"⟩ ⟨[[0xFF]], asciiBytes "t"⟩ fresh).2).1 =
      (some ⟨[[0xEF, 0xBF, 0xBD]], asciiBytes "t"⟩, none) := by
  decide

/-- The amended C6 at a bundle of two keys, one with a quote and one that is
not ASCII, and a token, loaded right after it was saved. -/
theorem save_load_roundtrip_witness :
    (secretsStash.Save calm ⟨"/v/stash"⟩
      ⟨[asciiBytes "k\"1", [0xC3, 0xA9]], asciiBytes "root"⟩ fresh).1 = none ∧
    (secretsStash.Load calm ⟨"/v/stash"⟩
      (secretsStash.Save calm ⟨"/v/stash"⟩
        ⟨[asciiBytes "k\"1", [0xC3, 0xA9]], asciiBytes "root"⟩ fresh).2).1 =
      (some ⟨[asciiBytes "k\"1", [0xC3, 0xA9]], asciiBytes "root"⟩, none) :=
  save_load_roundtrip calm false ⟨"/v/stash"⟩
    ⟨[asciiBytes "k\"1", [0xC3, 0xA9]], asciiBytes "root"⟩ fresh
    (secretsStash.Save calm ⟨"/v/stash"⟩
      ⟨[asciiBytes "k\"1", [0xC3, 0xA9]], asciiBytes "root"⟩ fresh).2
    calm_encodesJSON (by decide) (by decide) (by decide) (by decide) rfl rfl rfl rfl

/-- C7 refuted: with the interval zero, a predicate that returns true on its
third invocation is invoked once and `retry` returns nothing (`time.NewTicker`
panics), though the same fuel gives the three invocations and nil for an
interval of one second. -/
theorem retry_zero_interval_no_result :
    retry calm 3 Context.background 0 thirdTime 0 fresh = none ∧
    (thirdTime 0 fresh).1 = false ∧
    retry calm 3 Context.background second thirdTime 0 fresh =
      some (none, 3, ⟨2000000000, [], []⟩,
        [.invoke 0 false, .tick, .invoke 1000000000 false, .tick, .invoke 2000000000 true]) := by
  decide

/-- The amended C7 at a predicate that returns true on its third invocation. -/
theorem retry_cadence_witness :
    ∃ a1 w1 log tN later,
      retry calm 3 Context.background second thirdTime 0 fresh = some (none, a1, w1, log) ∧
      a1 = 3 ∧ log.map RetryEvent.untimed = cadence 3 ∧
      log.getLast? = some (.invoke tN true) ∧
      starts log = fresh.now :: later ∧
      (∀ (k s : Nat), later[k]? = some s → (thirdTime 0 fresh).2.2.now + (k + 1) * second ≤ s) ∧
      (∀ D, (∀ a w, (thirdTime a w).2.2.now ≤ w.now + D) →
        ∀ (k s s1 : Nat), (fresh.now :: later)[k]? = some s → later[k]? = some s1 →
          s1 ≤ s + D + second) ∧
      ∀ ctx : Context, ctx.isDone tN = false →
        retry calm 3 ctx second thirdTime 0 fresh = some (none, a1, w1, log) :=
  retry_cadence calm 3 second thirdTime (fun n => n) 3 0 fresh (by decide) (by decide)
    (le_refl _) rfl (fun _ _ => rfl) (fun _ _ => rfl) (fun _ _ => le_refl _)

/-- C8 at a sealed server: `vaultInit` returns nil after one probe. -/
theorem vaultInit_idempotent_witness :
    vaultInit calm 1 Context.background ⟨300 * second, 1, 1, true⟩ ⟨"/v/stash"⟩ fresh =
      some (none, ⟨3000000, [], [.readEnvironment, .newClient, .health]⟩) ∧
    (⟨3000000, [], [.readEnvironment, .newClient, .health]⟩ : World).files = fresh.files ∧
    ∃ added, (⟨3000000, [], [.readEnvironment, .newClient, .health]⟩ : World).calls =
      fresh.calls ++ added ∧ ∀ c ∈ added, Call.isProbe c :=
  vaultInit_idempotent calm 1 Context.background ⟨300 * second, 1, 1, true⟩ ⟨"/v/stash"⟩ fresh
    .sealed none ⟨3000000, [], [.readEnvironment, .newClient, .health]⟩ rfl (by decide)
    (Or.inl rfl)

/-- C9 refuted: with the acceptance set `{unknown}` and a server that cannot be
reached, the wait returns `unknown` together with the error of the probe. -/
theorem waitForServerStatus_returns_probe_error :
    waitForServerStatus down 1 Context.background [.unknown] fresh =
      some ((.unknown, some (.msg "connection refused")),
        ⟨3000000, [], [.readEnvironment, .newClient, .health]⟩) := by
  decide

theorem starting_script (w : World) : (vaultStatus starting w).1 = startingOutcomes (probes w) := by
  unfold vaultStatus config newClient starting calm startingOutcomes probes
  by_cases h : List.count Call.readEnvironment w.calls < 2
  · have h3 : List.count Call.readEnvironment w.calls + 1 < 3 := by omega
    simp [World.issue, List.count_append, h, h3]
  · have h3 : ¬ (List.count Call.readEnvironment w.calls + 1 < 3) := by omega
    simp [World.issue, List.count_append, h, h3]

/-- The amended C9 at the probe outcomes unknown, unknown, uninitialized with
the default acceptance set, a ten-second interval and a one-minute deadline:
the wait returns uninitialized after the third probe, at twenty seconds. -/
theorem waitForServerStatus_first_accepted_witness :
    waitForServerStatus starting 2 (Context.background.withTimeout 0 (60 * second)) [] fresh =
      some ((.uninitialized, none),
        ⟨20006000000, [], [.readEnvironment, .newClient, .health, .readEnvironment, .newClient,
          .health, .readEnvironment, .newClient, .health]⟩) := by
  obtain ⟨⟨w1, h1, -, -, h4⟩, -⟩ := waitForServerStatus_first_accepted starting 2 [] fresh
    startingOutcomes 2 starting_script (by decide)
    (fun i _ hi => by
      have : startingOutcomes i = (.unknown, some (.msg "connection refused")) := by
        simp [startingOutcomes, hi]
      rw [this]; decide)
    (by decide) (by decide)
  have hw : waitForServerStatus starting 2 Context.background [] fresh =
      some ((.uninitialized, none),
        ⟨20006000000, [], [.readEnvironment, .newClient, .health, .readEnvironment, .newClient,
          .health, .readEnvironment, .newClient, .health]⟩) := by decide
  rw [hw] at h1
  simp only [Option.some.injEq, Prod.mk.injEq] at h1
  rw [← h1.2] at h4
  have := h4 (Context.background.withTimeout 0 (60 * second)) (by decide)
  rw [this]
  decide

end VaultAutoUnseal
